import Mathlib

/-
Verification of the gemmlowp SSE packing kernel
(src/internal/pack_sse.h, class PackingRegisterBlock for
WidthMajorSideFormatNCells4x2 and SSERequantize).

Shallow embedding conventions:
  - a 128-bit SSE register is a list of 16 byte values (Nat, kept < 256 by
    taking % 256 at the points where the C code reads uint8 data);
  - the destination buffer and the sums_of_each_slice array are modelled as
    total functions Nat -> Nat (byte address -> byte value, column -> 32-bit
    accumulator bit pattern mod 2^32);
  - the rounding offset generator is a deterministic stream: a function
    seq : Nat -> Nat together with a position; get returns seq pos as a
    uint8 (% 256) and advances pos;
  - the Pack member function is translated statement by statement; in
    addition to the real state (buffer, sums, generator, cursor) the model
    records a ghost trace of byte writes and of (depth, width) sub-tile
    visits, used to state ordering and counting properties.
-/

/-- Modelled from the spec: ScalarRoundingOffsetGenerator (declared in
pack.h, not part of the sources here) is a stateful deterministic sequence
of one-byte rounding offsets; get() returns the next offset and advances
the state.  We model the abstract sequence as a function from draw index to
value, reduced mod 256 because get() returns std::uint8_t. -/
structure ROG where
  seq : Nat → Nat
  pos : Nat

/-- Modelled from the spec: one generator draw; returns the next offset
(as a byte) and the advanced generator. -/
def ROG.get (g : ROG) : Nat × ROG :=
  (g.seq g.pos % 256, ⟨g.seq, g.pos + 1⟩)

/-- One scalar requantization step of pack_sse.h lines 49-52:
scaled = uint16(v * maxVal); result byte = (scaled + offset) / 255 stored
into a uint8. -/
def requantizeByte (m v off : Nat) : Nat :=
  (v * m % 65536 + off) / 255 % 256

/-- The loop of SSERequantize (lines 48-53): requantize the first n bytes
of the register in place, drawing one offset per byte. -/
def requantizeBytes (m : Nat) : Nat → List Nat → ROG → List Nat × ROG
  | 0, _, g => ([], g)
  | _ + 1, [], g => ([], g)
  | n + 1, v :: rest, g =>
    let p := ROG.get g
    let q := requantizeBytes m n rest p.2
    (requantizeByte m v p.1 :: q.1, q.2)

/-- SSERequantize (pack_sse.h lines 34-54): identity when kBits == 8;
otherwise requantizes only the first 8 bytes of the register, with
kMaxVal = (1 << kBits) - 1 as a uint8. -/
def SSERequantize (bits : Nat) (r : List Nat) (g : ROG) : List Nat × ROG :=
  if bits = 8 then (r, g)
  else
    let p := requantizeBytes ((2 ^ bits - 1) % 256) 8 r g
    (p.1 ++ r.drop 8, p.2)

/-- The 16-bit word at word index i of a register (pair of bytes). -/
def wordAt (r : List Nat) (i : Nat) : List Nat :=
  [r.getD (2 * i) 0, r.getD (2 * i + 1) 0]

/-- The 32-bit dword at dword index i of a register (4 bytes). -/
def dwordAt (r : List Nat) (i : Nat) : List Nat :=
  [r.getD (4 * i) 0, r.getD (4 * i + 1) 0, r.getD (4 * i + 2) 0,
   r.getD (4 * i + 3) 0]

/-- The _mm_loadl_epi64 intrinsic: 8 bytes into the low half, upper half
zero. -/
def mm_loadl_epi64 (bytes : List Nat) : List Nat :=
  bytes.take 8 ++ [0, 0, 0, 0, 0, 0, 0, 0]

/-- The _mm_unpacklo_epi16 intrinsic: interleave the 16-bit words of the
low halves of a and b. -/
def mm_unpacklo_epi16 (a b : List Nat) : List Nat :=
  wordAt a 0 ++ wordAt b 0 ++ wordAt a 1 ++ wordAt b 1 ++
  wordAt a 2 ++ wordAt b 2 ++ wordAt a 3 ++ wordAt b 3

/-- The _mm_shuffle_epi32 intrinsic: select dwords by the 2-bit fields of
the immediate. -/
def mm_shuffle_epi32 (r : List Nat) (imm : Nat) : List Nat :=
  dwordAt r (imm % 4) ++ dwordAt r (imm / 4 % 4) ++
  dwordAt r (imm / 16 % 4) ++ dwordAt r (imm / 64 % 4)

/-- The _mm_blend_epi16 intrinsic: word i comes from b when bit i of the
mask is set, else from a. -/
def mm_blend_epi16 (a b : List Nat) (mask : Nat) : List Nat :=
  (if mask % 2 = 1 then wordAt b 0 else wordAt a 0) ++
  (if mask / 2 % 2 = 1 then wordAt b 1 else wordAt a 1) ++
  (if mask / 4 % 2 = 1 then wordAt b 2 else wordAt a 2) ++
  (if mask / 8 % 2 = 1 then wordAt b 3 else wordAt a 3) ++
  (if mask / 16 % 2 = 1 then wordAt b 4 else wordAt a 4) ++
  (if mask / 32 % 2 = 1 then wordAt b 5 else wordAt a 5) ++
  (if mask / 64 % 2 = 1 then wordAt b 6 else wordAt a 6) ++
  (if mask / 128 % 2 = 1 then wordAt b 7 else wordAt a 7)

/-- Modelled from the spec: the WidthMajor SideMap (pack.h, not in the
sources here) yields, for a (width, depth) origin, contiguous source bytes
along the depth axis, one width-stride apart per width row; so the 8 bytes
loaded from row w starting at depth d are src w (d+j), j < 8, each a uint8.
The source value function src is reduced mod 256 at the load, since the
buffer holds std::uint8_t. -/
def srcRow (src : Nat → Nat → Nat) (w d : Nat) : List Nat :=
  (List.range 8).map fun j => src w (d + j) % 256

/-- The four stored registers of one inner-loop iteration of Pack
(pack_sse.h lines 100-136) plus the generator state after its four
SSERequantize calls.  r9, r10 are the registers stored at offsets 0 and
8*Cells; r11, r12 (built from the not-yet-requantized upper halves of r9,
r10) are stored at offsets 16*Cells and 24*Cells. -/
structure CellOut where
  r9 : List Nat
  r10 : List Nat
  r11 : List Nat
  r12 : List Nat
  g : ROG

/-- The register computation of one iteration of the cell_start_width loop
of Pack (lines 100-136), translated instruction by instruction. -/
def cellOut (bits : Nat) (src : Nat → Nat → Nat) (csw csd : Nat)
    (g : ROG) : CellOut :=
  let xmm1 := mm_loadl_epi64 (srcRow src csw csd)
  let xmm2 := mm_loadl_epi64 (srcRow src (csw + 1) csd)
  let xmm3 := mm_loadl_epi64 (srcRow src (csw + 2) csd)
  let xmm4 := mm_loadl_epi64 (srcRow src (csw + 3) csd)
  let xmm5 := mm_unpacklo_epi16 xmm1 xmm2
  let xmm8 := mm_shuffle_epi32 xmm5 0x31
  let xmm6 := mm_unpacklo_epi16 xmm3 xmm4
  let xmm7 := mm_shuffle_epi32 xmm6 0x80
  let p9 := SSERequantize bits (mm_blend_epi16 xmm5 xmm7 0xcc) g
  let p10 := SSERequantize bits (mm_blend_epi16 xmm8 xmm6 0xcc) p9.2
  let p11 := SSERequantize bits (mm_shuffle_epi32 p9.1 0xee) p10.2
  let p12 := SSERequantize bits (mm_shuffle_epi32 p10.1 0xee) p11.2
  ⟨p9.1, p10.1, p11.1, p12.1, p12.2⟩

/-- Modelled from the spec: the destination block (PackedSideBlock,
pack.h): a byte buffer, the per-column sums_of_each_slice array of 32-bit
accumulators (stored as bit patterns mod 2^32), and a forward-only byte
cursor; seek_forward_n_cells n advances the cursor by n cells of
kCellSize bytes. -/
structure PackedSideBlock where
  data : Nat → Nat
  sums : Nat → Nat
  pos : Nat

/-- State threaded through the two loops of Pack: the destination buffer,
the sums array, the generator, the running dst_ptr offset, plus ghost
traces of the byte writes (absolute offset, value) and of the sub-tile
visits (cell_start_depth, cell_start_width), both in program order. -/
structure PackSt where
  dst : Nat → Nat
  sums : Nat → Nat
  g : ROG
  off : Nat
  writes : List (Nat × Nat)
  visits : List (Nat × Nat)

/-- The _mm_storel_epi64 intrinsic: write the low 8 bytes of a register at
byte offset off of the buffer. -/
def store8 (f : Nat → Nat) (off : Nat) (r : List Nat) : Nat → Nat :=
  fun a => if off ≤ a ∧ a < off + 8 then r.getD (a - off) 0 else f a

/-- One 32-bit lane of _mm_madd_epi16 applied to the zero-extended low 8
bytes of a register and the all-ones vector: the sum of byte pair
(2i, 2i+1). -/
def lane (r : List Nat) (i : Nat) : Nat :=
  r.getD (2 * i) 0 + r.getD (2 * i + 1) 0

/-- 2^32, the modulus of the 32-bit accumulator lanes. -/
def W32 : Nat := 4294967296

/-- The accumulator update of Pack lines 138-154 for one 32-bit lane i:
four successive wrapping _mm_add_epi32 of the madd lanes of the four
stored registers onto the loaded sums value. -/
def addLanes (s0 : Nat) (o : CellOut) (i : Nat) : Nat :=
  ((((s0 + lane o.r9 i) % W32 + lane o.r10 i) % W32 + lane o.r11 i) % W32
    + lane o.r12 i) % W32

/-- The final _mm_storeu_si128 of the four updated lanes at
cell_sums_of_each_slice_ptr (lines 156-158). -/
def storeSums4 (s : Nat → Nat) (base : Nat) (o : CellOut) : Nat → Nat :=
  fun c => if base ≤ c ∧ c < base + 4 then addLanes (s c) o (c - base)
           else s c

/-- Ghost trace of one 8-byte store: the 8 (absolute offset, value) pairs
in increasing offset order. -/
def writes8 (off : Nat) (r : List Nat) : List (Nat × Nat) :=
  (List.range 8).map fun b => (off + b, r.getD b 0)

/-- Ghost trace of the four stores of one inner-loop iteration, in program
order (offsets 0, 8C, 16C, 24C from the current dst_ptr). -/
def cellWrites (C off : Nat) (o : CellOut) : List (Nat × Nat) :=
  writes8 off o.r9 ++ writes8 (off + 8 * C) o.r10 ++
  writes8 (off + 16 * C) o.r11 ++ writes8 (off + 24 * C) o.r12

/-- One iteration of the cell_start_width loop of Pack (lines 93-160) with
cell_start_width = 4 * ci: compute the four registers, store them at
dst_ptr + {0, 8C, 16C, 24C}, accumulate the four madd lanes into
sums_of_each_slice at start_width + 4*ci .. + 3, advance dst_ptr by
kCellSize = 8. -/
def cellBody (C bits : Nat) (src : Nat → Nat → Nat) (sw csd ci : Nat)
    (st : PackSt) : PackSt :=
  let o := cellOut bits src (4 * ci) csd st.g
  { dst := store8 (store8 (store8 (store8 st.dst st.off o.r9)
             (st.off + 8 * C) o.r10) (st.off + 16 * C) o.r11)
             (st.off + 24 * C) o.r12,
    sums := storeSums4 st.sums (sw + 4 * ci) o,
    g := o.g,
    off := st.off + 8,
    writes := st.writes ++ cellWrites C st.off o,
    visits := st.visits ++ [(csd, 4 * ci)] }

/-- The cell_start_width loop: n remaining iterations starting at cell
index ci (cell_start_width = 4 * ci). -/
def cellLoop (C bits : Nat) (src : Nat → Nat → Nat) (sw csd : Nat) :
    Nat → Nat → PackSt → PackSt
  | _, 0, st => st
  | ci, n + 1, st =>
    cellLoop C bits src sw csd (ci + 1) n (cellBody C bits src sw csd ci st)

/-- One iteration of the cell_start_depth loop (lines 91-162): the inner
loop over all kCells cell groups, then dst_ptr += 3 * kCellSize * kCells. -/
def depthBody (C bits : Nat) (src : Nat → Nat → Nat) (sw csd : Nat)
    (st : PackSt) : PackSt :=
  let st1 := cellLoop C bits src sw csd 0 C st
  { st1 with off := st1.off + 24 * C }

/-- The whole loop nest of Pack: cell_start_depth takes the values 0 and 8
(kRegisterSize = 16, depth_step = 8). -/
def packRun (C bits : Nat) (src : Nat → Nat → Nat)
    (blk : PackedSideBlock) (sw : Nat) (g : ROG) : PackSt :=
  depthBody C bits src sw 8 (depthBody C bits src sw 0
    ⟨blk.data, blk.sums, g, blk.pos, [], []⟩)

/-- Modelled from the spec: kRegisterSize = 16 (common.h, not in the
sources here): a 128-bit SSE register holds 16 bytes, so one packed block
covers 16 depth positions. -/
def kRegisterSize : Nat := 16

/-- The depth extent of a destination cell (CellFormat of 4x2). -/
def kCellDepth : Nat := 2

/-- The byte size of a destination cell (CellFormat of 4x2). -/
def kCellSize : Nat := 8

/-- PackingRegisterBlock::Pack (pack_sse.h lines 84-164): run the loop
nest, then seek the destination cursor forward by
kCells * kRegisterSize / kCellDepth cells of kCellSize bytes each. -/
def Pack (C bits : Nat) (src : Nat → Nat → Nat) (blk : PackedSideBlock)
    (sw : Nat) (g : ROG) : PackedSideBlock × ROG :=
  let st := packRun C bits src blk sw g
  (⟨st.dst, st.sums, blk.pos + C * kRegisterSize / kCellDepth * kCellSize⟩,
   st.g)

/-- Ghost observation: the ordered byte-write trace of one Pack call. -/
def packWrites (C bits : Nat) (src : Nat → Nat → Nat)
    (blk : PackedSideBlock) (sw : Nat) (g : ROG) : List (Nat × Nat) :=
  (packRun C bits src blk sw g).writes

/-- Ghost observation: the ordered (cell_start_depth, cell_start_width)
visit trace of one Pack call. -/
def packVisits (C bits : Nat) (src : Nat → Nat → Nat)
    (blk : PackedSideBlock) (sw : Nat) (g : ROG) : List (Nat × Nat) :=
  (packRun C bits src blk sw g).visits

def dpc (bits : Nat) : Nat := if bits = 8 then 0 else 32

def preByte (src : Nat → Nat → Nat) (csw csd k b : Nat) : Nat :=
  src (csw + b / 2) (csd + 2 * k + b % 2) % 256

def rawCell (src : Nat → Nat → Nat) (csw csd k : Nat) : List Nat :=
  (List.range 8).map fun b => preByte src csw csd k b

def reqCell (m : Nat) (src : Nat → Nat → Nat) (csw csd k : Nat) (g : ROG) :
    List Nat :=
  (List.range 8).map fun b =>
    requantizeByte m (preByte src csw csd k b) (g.seq (g.pos + (8 * k + b)) % 256)

theorem srcRow_lit (src : Nat → Nat → Nat) (w d : Nat) :
    srcRow src w d =
      [src w d % 256, src w (d + 1) % 256, src w (d + 2) % 256,
       src w (d + 3) % 256, src w (d + 4) % 256, src w (d + 5) % 256,
       src w (d + 6) % 256, src w (d + 7) % 256] := rfl

theorem mm_loadl_epi64_lit (v0 v1 v2 v3 v4 v5 v6 v7 : Nat) :
    mm_loadl_epi64 [v0, v1, v2, v3, v4, v5, v6, v7] =
      [v0, v1, v2, v3, v4, v5, v6, v7, 0, 0, 0, 0, 0, 0, 0, 0] := rfl

theorem mm_unpacklo_epi16_lit (v0 v1 v2 v3 v4 v5 v6 v7 v8 v9 v10 v11 v12 v13
    v14 v15 w0 w1 w2 w3 w4 w5 w6 w7 w8 w9 w10 w11 w12 w13 w14 w15 : Nat) :
    mm_unpacklo_epi16
      [v0, v1, v2, v3, v4, v5, v6, v7, v8, v9, v10, v11, v12, v13, v14, v15]
      [w0, w1, w2, w3, w4, w5, w6, w7, w8, w9, w10, w11, w12, w13, w14, w15] =
      [v0, v1, w0, w1, v2, v3, w2, w3, v4, v5, w4, w5, v6, v7, w6, w7] := rfl

theorem mm_shuffle_epi32_x31 (v0 v1 v2 v3 v4 v5 v6 v7 v8 v9 v10 v11 v12 v13
    v14 v15 : Nat) :
    mm_shuffle_epi32
      [v0, v1, v2, v3, v4, v5, v6, v7, v8, v9, v10, v11, v12, v13, v14, v15]
      0x31 =
      [v4, v5, v6, v7, v0, v1, v2, v3, v12, v13, v14, v15, v0, v1, v2, v3] :=
  rfl

theorem mm_shuffle_epi32_x80 (v0 v1 v2 v3 v4 v5 v6 v7 v8 v9 v10 v11 v12 v13
    v14 v15 : Nat) :
    mm_shuffle_epi32
      [v0, v1, v2, v3, v4, v5, v6, v7, v8, v9, v10, v11, v12, v13, v14, v15]
      0x80 =
      [v0, v1, v2, v3, v0, v1, v2, v3, v0, v1, v2, v3, v8, v9, v10, v11] :=
  rfl

theorem mm_shuffle_epi32_xee (v0 v1 v2 v3 v4 v5 v6 v7 v8 v9 v10 v11 v12 v13
    v14 v15 : Nat) :
    mm_shuffle_epi32
      [v0, v1, v2, v3, v4, v5, v6, v7, v8, v9, v10, v11, v12, v13, v14, v15]
      0xee =
      [v8, v9, v10, v11, v12, v13, v14, v15, v8, v9, v10, v11, v12, v13, v14,
       v15] := rfl

theorem mm_blend_epi16_xcc (v0 v1 v2 v3 v4 v5 v6 v7 v8 v9 v10 v11 v12 v13
    v14 v15 w0 w1 w2 w3 w4 w5 w6 w7 w8 w9 w10 w11 w12 w13 w14 w15 : Nat) :
    mm_blend_epi16
      [v0, v1, v2, v3, v4, v5, v6, v7, v8, v9, v10, v11, v12, v13, v14, v15]
      [w0, w1, w2, w3, w4, w5, w6, w7, w8, w9, w10, w11, w12, w13, w14, w15]
      0xcc =
      [v0, v1, v2, v3, w4, w5, w6, w7, v8, v9, v10, v11, w12, w13, w14, w15] :=
  rfl

theorem SSERequantize_eq8 (r : List Nat) (g : ROG) :
    SSERequantize 8 r g = (r, g) := rfl

theorem SSERequantize_ne8_lit (bits : Nat) (h : ¬ bits = 8)
    (v0 v1 v2 v3 v4 v5 v6 v7 v8 v9 v10 v11 v12 v13 v14 v15 : Nat) (g : ROG) :
    SSERequantize bits
      [v0, v1, v2, v3, v4, v5, v6, v7, v8, v9, v10, v11, v12, v13, v14, v15]
      g =
      ([requantizeByte ((2 ^ bits - 1) % 256) v0 (g.seq g.pos % 256),
        requantizeByte ((2 ^ bits - 1) % 256) v1 (g.seq (g.pos + 1) % 256),
        requantizeByte ((2 ^ bits - 1) % 256) v2 (g.seq (g.pos + 2) % 256),
        requantizeByte ((2 ^ bits - 1) % 256) v3 (g.seq (g.pos + 3) % 256),
        requantizeByte ((2 ^ bits - 1) % 256) v4 (g.seq (g.pos + 4) % 256),
        requantizeByte ((2 ^ bits - 1) % 256) v5 (g.seq (g.pos + 5) % 256),
        requantizeByte ((2 ^ bits - 1) % 256) v6 (g.seq (g.pos + 6) % 256),
        requantizeByte ((2 ^ bits - 1) % 256) v7 (g.seq (g.pos + 7) % 256),
        v8, v9, v10, v11, v12, v13, v14, v15], ⟨g.seq, g.pos + 8⟩) := by
  simp only [SSERequantize, if_neg h]
  rfl

theorem rawCell_lit (src : Nat → Nat → Nat) (csw csd k : Nat) :
    rawCell src csw csd k =
      [src csw (csd + 2 * k) % 256, src csw (csd + 2 * k + 1) % 256,
       src (csw + 1) (csd + 2 * k) % 256, src (csw + 1) (csd + 2 * k + 1) % 256,
       src (csw + 2) (csd + 2 * k) % 256, src (csw + 2) (csd + 2 * k + 1) % 256,
       src (csw + 3) (csd + 2 * k) % 256,
       src (csw + 3) (csd + 2 * k + 1) % 256] := rfl

theorem reqCell_lit (m : Nat) (src : Nat → Nat → Nat) (csw csd k : Nat)
    (g : ROG) :
    reqCell m src csw csd k g =
      [requantizeByte m (src csw (csd + 2 * k) % 256)
         (g.seq (g.pos + 8 * k) % 256),
       requantizeByte m (src csw (csd + 2 * k + 1) % 256)
         (g.seq (g.pos + (8 * k + 1)) % 256),
       requantizeByte m (src (csw + 1) (csd + 2 * k) % 256)
         (g.seq (g.pos + (8 * k + 2)) % 256),
       requantizeByte m (src (csw + 1) (csd + 2 * k + 1) % 256)
         (g.seq (g.pos + (8 * k + 3)) % 256),
       requantizeByte m (src (csw + 2) (csd + 2 * k) % 256)
         (g.seq (g.pos + (8 * k + 4)) % 256),
       requantizeByte m (src (csw + 2) (csd + 2 * k + 1) % 256)
         (g.seq (g.pos + (8 * k + 5)) % 256),
       requantizeByte m (src (csw + 3) (csd + 2 * k) % 256)
         (g.seq (g.pos + (8 * k + 6)) % 256),
       requantizeByte m (src (csw + 3) (csd + 2 * k + 1) % 256)
         (g.seq (g.pos + (8 * k + 7)) % 256)] := by
  simp only [reqCell, preByte]
  rfl

theorem cellOut_eq8 (src : Nat → Nat → Nat) (csw csd : Nat) (g : ROG) :
    cellOut 8 src csw csd g =
      ⟨rawCell src csw csd 0 ++ rawCell src csw csd 2,
       rawCell src csw csd 1 ++ rawCell src csw csd 3,
       rawCell src csw csd 2 ++ rawCell src csw csd 2,
       rawCell src csw csd 3 ++ rawCell src csw csd 3, g⟩ := by
  simp [cellOut, srcRow_lit, mm_loadl_epi64_lit, mm_unpacklo_epi16_lit,
    mm_shuffle_epi32_x31, mm_shuffle_epi32_x80, mm_shuffle_epi32_xee,
    mm_blend_epi16_xcc, SSERequantize_eq8, rawCell_lit, Nat.add_assoc]

theorem cellOut_ne8 (bits : Nat) (h : ¬ bits = 8) (src : Nat → Nat → Nat)
    (csw csd : Nat) (g : ROG) :
    cellOut bits src csw csd g =
      ⟨reqCell ((2 ^ bits - 1) % 256) src csw csd 0 g ++ rawCell src csw csd 2,
       reqCell ((2 ^ bits - 1) % 256) src csw csd 1 g ++ rawCell src csw csd 3,
       reqCell ((2 ^ bits - 1) % 256) src csw csd 2 g ++ rawCell src csw csd 2,
       reqCell ((2 ^ bits - 1) % 256) src csw csd 3 g ++ rawCell src csw csd 3,
       ⟨g.seq, g.pos + 32⟩⟩ := by
  simp [cellOut, srcRow_lit, mm_loadl_epi64_lit, mm_unpacklo_epi16_lit,
    mm_shuffle_epi32_x31, mm_shuffle_epi32_x80, mm_shuffle_epi32_xee,
    mm_blend_epi16_xcc, SSERequantize_ne8_lit bits h, rawCell_lit,
    reqCell_lit, Nat.add_assoc]

/-- Register selector: the register stored at offset 8*C*k of the current
dst_ptr in one inner-loop iteration. -/
def regOf (k : Nat) (o : CellOut) : List Nat :=
  match k with
  | 0 => o.r9
  | 1 => o.r10
  | 2 => o.r11
  | _ => o.r12

/-- The total contribution of one inner-loop iteration to the accumulator
lane of local column i: the madd pair sums of the four stored registers. -/
def cellColSum (i : Nat) (o : CellOut) : Nat :=
  lane o.r9 i + lane o.r10 i + lane o.r11 i + lane o.r12 i

/-- The kernel width of the packed side format: kCellWidth * kCells. -/
def kKernelWidth (C : Nat) : Nat := 4 * C

theorem addLanes_eq (s0 : Nat) (o : CellOut) (i : Nat) :
    addLanes s0 o i = (s0 + cellColSum i o) % W32 := by
  simp [addLanes, cellColSum, Nat.mod_add_mod, Nat.add_assoc]

theorem cellOut_g (bits : Nat) (src : Nat → Nat → Nat) (csw csd : Nat)
    (g : ROG) : (cellOut bits src csw csd g).g = ⟨g.seq, g.pos + dpc bits⟩ := by
  by_cases h : bits = 8
  · subst h; rw [cellOut_eq8]; simp [dpc]
  · rw [cellOut_ne8 bits h]; simp [dpc, h]

theorem storeSums4_at (s : Nat → Nat) (base : Nat) (o : CellOut) (i : Nat)
    (h : i < 4) :
    storeSums4 s base o (base + i) = (s (base + i) + cellColSum i o) % W32 := by
  have h2 : base + i - base = i := by omega
  simp only [storeSums4, if_pos (by omega : base ≤ base + i ∧ base + i < base + 4),
    h2, addLanes_eq]

theorem storeSums4_frame (s : Nat → Nat) (base : Nat) (o : CellOut) (c : Nat)
    (h : c < base ∨ base + 4 ≤ c) : storeSums4 s base o c = s c := by
  simp only [storeSums4]
  rw [if_neg (by omega)]

theorem store8_at (f : Nat → Nat) (off : Nat) (r : List Nat) (b : Nat)
    (h : b < 8) : store8 f off r (off + b) = r.getD b 0 := by
  have h2 : off + b - off = b := by omega
  simp only [store8, if_pos (by omega : off ≤ off + b ∧ off + b < off + 8), h2]

theorem store8_frame (f : Nat → Nat) (off : Nat) (r : List Nat) (a : Nat)
    (h : ∀ b, b < 8 → a ≠ off + b) : store8 f off r a = f a := by
  simp only [store8]
  rw [if_neg]
  intro hc
  exact h (a - off) (by omega) (by omega)

theorem cellBody_off (C bits : Nat) (src : Nat → Nat → Nat) (sw csd ci : Nat)
    (st : PackSt) : (cellBody C bits src sw csd ci st).off = st.off + 8 := rfl

theorem cellBody_g (C bits : Nat) (src : Nat → Nat → Nat) (sw csd ci : Nat)
    (st : PackSt) :
    (cellBody C bits src sw csd ci st).g = ⟨st.g.seq, st.g.pos + dpc bits⟩ :=
  cellOut_g bits src (4 * ci) csd st.g

theorem cellBody_writes (C bits : Nat) (src : Nat → Nat → Nat)
    (sw csd ci : Nat) (st : PackSt) :
    (cellBody C bits src sw csd ci st).writes =
      st.writes ++ cellWrites C st.off (cellOut bits src (4 * ci) csd st.g) :=
  rfl

theorem cellBody_visits (C bits : Nat) (src : Nat → Nat → Nat)
    (sw csd ci : Nat) (st : PackSt) :
    (cellBody C bits src sw csd ci st).visits =
      st.visits ++ [(csd, 4 * ci)] := rfl

theorem cellBody_sums (C bits : Nat) (src : Nat → Nat → Nat) (sw csd ci : Nat)
    (st : PackSt) :
    (cellBody C bits src sw csd ci st).sums =
      storeSums4 st.sums (sw + 4 * ci) (cellOut bits src (4 * ci) csd st.g) :=
  rfl

theorem cellBody_dst_frame (C bits : Nat) (src : Nat → Nat → Nat)
    (sw csd ci : Nat) (st : PackSt) (a : Nat)
    (h : ∀ k b, k < 4 → b < 8 → a ≠ st.off + 8 * C * k + b) :
    (cellBody C bits src sw csd ci st).dst a = st.dst a := by
  simp only [cellBody]
  rw [store8_frame _ _ _ _ (fun b hb => by have := h 3 b (by omega) hb; omega),
    store8_frame _ _ _ _ (fun b hb => by have := h 2 b (by omega) hb; omega),
    store8_frame _ _ _ _ (fun b hb => by have := h 1 b (by omega) hb; omega),
    store8_frame _ _ _ _ (fun b hb => by have := h 0 b (by omega) hb; omega)]

theorem cellBody_dst_at (C bits : Nat) (src : Nat → Nat → Nat)
    (sw csd ci : Nat) (st : PackSt) (k b : Nat) (hC : 1 ≤ C) (hk : k < 4)
    (hb : b < 8) :
    (cellBody C bits src sw csd ci st).dst (st.off + 8 * C * k + b) =
      (regOf k (cellOut bits src (4 * ci) csd st.g)).getD b 0 := by
  simp only [cellBody]
  interval_cases k
  · have e : st.off + 8 * C * 0 + b = st.off + b := by ring
    rw [e, store8_frame _ _ _ _ (fun b' hb' => by omega),
      store8_frame _ _ _ _ (fun b' hb' => by omega),
      store8_frame _ _ _ _ (fun b' hb' => by omega),
      store8_at _ _ _ _ hb]
    rfl
  · have e : st.off + 8 * C * 1 + b = (st.off + 8 * C) + b := by ring
    rw [e, store8_frame _ _ _ _ (fun b' hb' => by omega),
      store8_frame _ _ _ _ (fun b' hb' => by omega),
      store8_at _ _ _ _ hb]
    rfl
  · have e : st.off + 8 * C * 2 + b = (st.off + 16 * C) + b := by ring
    rw [e, store8_frame _ _ _ _ (fun b' hb' => by omega),
      store8_at _ _ _ _ hb]
    rfl
  · have e : st.off + 8 * C * 3 + b = (st.off + 24 * C) + b := by ring
    rw [e, store8_at _ _ _ _ hb]
    rfl

theorem cellLoop_zero (C bits : Nat) (src : Nat → Nat → Nat) (sw csd ci : Nat)
    (st : PackSt) : cellLoop C bits src sw csd ci 0 st = st := rfl

theorem cellLoop_succ (C bits : Nat) (src : Nat → Nat → Nat) (sw csd ci n : Nat)
    (st : PackSt) :
    cellLoop C bits src sw csd ci (n + 1) st =
      cellLoop C bits src sw csd (ci + 1) n (cellBody C bits src sw csd ci st) :=
  rfl

theorem cellLoop_off (C bits : Nat) (src : Nat → Nat → Nat) (sw csd : Nat) :
    ∀ (n ci : Nat) (st : PackSt),
      (cellLoop C bits src sw csd ci n st).off = st.off + 8 * n := by
  intro n
  induction n with
  | zero => intro ci st; rfl
  | succ n ih =>
    intro ci st
    rw [cellLoop_succ, ih, cellBody_off]
    ring

theorem cellLoop_g (C bits : Nat) (src : Nat → Nat → Nat) (sw csd : Nat) :
    ∀ (n ci : Nat) (st : PackSt),
      (cellLoop C bits src sw csd ci n st).g =
        ⟨st.g.seq, st.g.pos + dpc bits * n⟩ := by
  intro n
  induction n with
  | zero => intro ci st; rfl
  | succ n ih =>
    intro ci st
    rw [cellLoop_succ, ih, cellBody_g]
    simp only []
    congr 1
    ring


theorem cellLoop_visits (C bits : Nat) (src : Nat → Nat → Nat) (sw csd : Nat) :
    ∀ (n ci : Nat) (st : PackSt),
      (cellLoop C bits src sw csd ci n st).visits =
        st.visits ++ (List.range n).map (fun t => (csd, 4 * (ci + t))) := by
  intro n
  induction n with
  | zero => intro ci st; simp [cellLoop_zero]
  | succ n ih =>
    intro ci st
    rw [cellLoop_succ, ih, cellBody_visits, List.range_succ_eq_map]
    simp only [List.map_cons, List.map_map, List.append_assoc,
      List.singleton_append, Nat.add_zero]
    congr 1
    congr 1
    refine List.map_congr_left fun t ht => ?_
    simp only [Function.comp_apply, Nat.succ_eq_add_one]
    congr 1
    omega

theorem cellLoop_writes (C bits : Nat) (src : Nat → Nat → Nat) (sw csd : Nat) :
    ∀ (n ci : Nat) (st : PackSt),
      (cellLoop C bits src sw csd ci n st).writes =
        st.writes ++ (List.range n).flatMap (fun t =>
          cellWrites C (st.off + 8 * t)
            (cellOut bits src (4 * (ci + t)) csd
              ⟨st.g.seq, st.g.pos + dpc bits * t⟩)) := by
  intro n
  induction n with
  | zero => intro ci st; simp [cellLoop_zero]
  | succ n ih =>
    intro ci st
    rw [cellLoop_succ, ih, cellBody_writes, cellBody_off, cellBody_g,
      List.range_succ_eq_map]
    simp only [List.flatMap_cons, List.flatMap_map, List.append_assoc,
      Nat.add_zero, Nat.mul_zero]
    congr 1
    congr 1
    refine List.flatMap_congr fun t ht => ?_
    simp only [Function.comp_apply, Nat.succ_eq_add_one]
    have e1 : st.off + 8 + 8 * t = st.off + 8 * (t + 1) := by ring
    have e2 : 4 * (ci + 1 + t) = 4 * (ci + (t + 1)) := by ring
    have e3 : st.g.pos + dpc bits + dpc bits * t =
        st.g.pos + dpc bits * (t + 1) := by ring
    rw [e1, e2, e3]

theorem cellLoop_sums_frame (C bits : Nat) (src : Nat → Nat → Nat)
    (sw csd : Nat) :
    ∀ (n ci : Nat) (st : PackSt) (c : Nat),
      (c < sw + 4 * ci ∨ sw + 4 * (ci + n) ≤ c) →
      (cellLoop C bits src sw csd ci n st).sums c = st.sums c := by
  intro n
  induction n with
  | zero => intro ci st c h; rfl
  | succ n ih =>
    intro ci st c h
    rw [cellLoop_succ, ih (ci + 1) _ c (by omega), cellBody_sums]
    exact storeSums4_frame _ _ _ _ (by omega)

theorem cellLoop_sums_at (C bits : Nat) (src : Nat → Nat → Nat)
    (sw csd : Nat) :
    ∀ (n ci : Nat) (st : PackSt) (t i : Nat), t < n → i < 4 →
      (cellLoop C bits src sw csd ci n st).sums (sw + 4 * (ci + t) + i) =
        (st.sums (sw + 4 * (ci + t) + i) +
          cellColSum i (cellOut bits src (4 * (ci + t)) csd
            ⟨st.g.seq, st.g.pos + dpc bits * t⟩)) % W32 := by
  intro n
  induction n with
  | zero => intro ci st t i ht hi; omega
  | succ n ih =>
    intro ci st t i ht hi
    rw [cellLoop_succ]
    match t with
    | 0 =>
      rw [cellLoop_sums_frame C bits src sw csd n (ci + 1)
        (cellBody C bits src sw csd ci st) _ (by omega), cellBody_sums]
      simp only [Nat.add_zero, Nat.mul_zero]
      exact storeSums4_at st.sums (sw + 4 * ci) _ i hi
    | t' + 1 =>
      have e2 : sw + 4 * (ci + (t' + 1)) + i = sw + 4 * ((ci + 1) + t') + i := by
        ring
      rw [e2, ih (ci + 1) _ t' i (by omega) hi, cellBody_sums, cellBody_g]
      rw [storeSums4_frame _ _ _ _ (by omega)]
      simp only []
      have e3 : st.g.pos + dpc bits + dpc bits * t' =
          st.g.pos + dpc bits * (t' + 1) := by ring
      have e4 : 4 * ((ci + 1) + t') = 4 * (ci + (t' + 1)) := by ring
      rw [e3, e4]

theorem cellLoop_dst_frame (C bits : Nat) (src : Nat → Nat → Nat)
    (sw csd : Nat) :
    ∀ (n ci : Nat) (st : PackSt) (a : Nat),
      (∀ t k b, t < n → k < 4 → b < 8 → a ≠ st.off + 8 * t + 8 * C * k + b) →
      (cellLoop C bits src sw csd ci n st).dst a = st.dst a := by
  intro n
  induction n with
  | zero => intro ci st a h; rfl
  | succ n ih =>
    intro ci st a h
    rw [cellLoop_succ, ih (ci + 1) _ a ?_]
    · exact cellBody_dst_frame C bits src sw csd ci st a fun k b hk hb => by
        have := h 0 k b (by omega) hk hb
        omega
    · intro t k b ht hk hb
      have := h (t + 1) k b (by omega) hk hb
      rw [cellBody_off]
      omega

theorem cellLoop_dst_at (C bits : Nat) (src : Nat → Nat → Nat)
    (sw csd : Nat) :
    ∀ (n ci : Nat) (st : PackSt) (t k b : Nat), 1 ≤ C → n ≤ C → t < n →
      k < 4 → b < 8 →
      (cellLoop C bits src sw csd ci n st).dst
          (st.off + 8 * t + 8 * C * k + b) =
        (regOf k (cellOut bits src (4 * (ci + t)) csd
          ⟨st.g.seq, st.g.pos + dpc bits * t⟩)).getD b 0 := by
  intro n
  induction n with
  | zero => intro ci st t k b hC hn ht hk hb; omega
  | succ n ih =>
    intro ci st t k b hC hn ht hk hb
    rw [cellLoop_succ]
    match t with
    | 0 =>
      rw [cellLoop_dst_frame C bits src sw csd n (ci + 1)
        (cellBody C bits src sw csd ci st) _ ?_]
      · have e : st.off + 8 * 0 + 8 * C * k + b = st.off + 8 * C * k + b := by
          ring
        rw [e, cellBody_dst_at C bits src sw csd ci st k b hC hk hb]
        simp only [Nat.add_zero, Nat.mul_zero]
      · intro t' k' b' ht' hk' hb'
        rw [cellBody_off]
        interval_cases k <;> interval_cases k' <;> omega
    | t' + 1 =>
      have e : st.off + 8 * (t' + 1) + 8 * C * k + b =
          (cellBody C bits src sw csd ci st).off + 8 * t' + 8 * C * k + b := by
        rw [cellBody_off]; ring
      rw [e, ih (ci + 1) _ t' k b hC (by omega) (by omega) hk hb, cellBody_g]
      simp only []
      have e3 : st.g.pos + dpc bits + dpc bits * t' =
          st.g.pos + dpc bits * (t' + 1) := by ring
      have e4 : 4 * ((ci + 1) + t') = 4 * (ci + (t' + 1)) := by ring
      rw [e3, e4]

theorem depthBody_off (C bits : Nat) (src : Nat → Nat → Nat) (sw csd : Nat)
    (st : PackSt) : (depthBody C bits src sw csd st).off = st.off + 32 * C := by
  simp only [depthBody, cellLoop_off]
  ring

theorem depthBody_g (C bits : Nat) (src : Nat → Nat → Nat) (sw csd : Nat)
    (st : PackSt) :
    (depthBody C bits src sw csd st).g = ⟨st.g.seq, st.g.pos + dpc bits * C⟩ := by
  simp only [depthBody, cellLoop_g]

theorem depthBody_dst (C bits : Nat) (src : Nat → Nat → Nat) (sw csd : Nat)
    (st : PackSt) :
    (depthBody C bits src sw csd st).dst =
      (cellLoop C bits src sw csd 0 C st).dst := rfl

theorem depthBody_sums (C bits : Nat) (src : Nat → Nat → Nat) (sw csd : Nat)
    (st : PackSt) :
    (depthBody C bits src sw csd st).sums =
      (cellLoop C bits src sw csd 0 C st).sums := rfl

theorem depthBody_writes (C bits : Nat) (src : Nat → Nat → Nat) (sw csd : Nat)
    (st : PackSt) :
    (depthBody C bits src sw csd st).writes =
      (cellLoop C bits src sw csd 0 C st).writes := rfl

theorem depthBody_visits (C bits : Nat) (src : Nat → Nat → Nat) (sw csd : Nat)
    (st : PackSt) :
    (depthBody C bits src sw csd st).visits =
      (cellLoop C bits src sw csd 0 C st).visits := rfl

theorem packRun_dst_at (C bits : Nat) (src : Nat → Nat → Nat)
    (blk : PackedSideBlock) (sw : Nat) (g : ROG) (di t k b : Nat)
    (hC : 1 ≤ C) (hdi : di < 2) (ht : t < C) (hk : k < 4) (hb : b < 8) :
    (packRun C bits src blk sw g).dst
        (blk.pos + 32 * C * di + 8 * t + 8 * C * k + b) =
      (regOf k (cellOut bits src (4 * t) (8 * di)
        ⟨g.seq, g.pos + dpc bits * (C * di + t)⟩)).getD b 0 := by
  have hA_off : (depthBody C bits src sw 0
      ⟨blk.data, blk.sums, g, blk.pos, [], []⟩).off = blk.pos + 32 * C := by
    rw [depthBody_off]
  interval_cases di
  · have e : blk.pos + 32 * C * 0 + 8 * t + 8 * C * k + b =
        blk.pos + 8 * t + 8 * C * k + b := by ring
    rw [packRun, e, depthBody_dst, cellLoop_dst_frame C bits src sw 8 C 0 _ _ ?_]
    · rw [depthBody_dst,
        cellLoop_dst_at C bits src sw 0 C 0 _ t k b hC (le_refl C) ht hk hb]
      simp only [Nat.zero_add, Nat.mul_zero, Nat.add_zero]
    · intro t' k' b' ht' hk' hb'
      rw [hA_off]
      interval_cases k <;> interval_cases k' <;> omega
  · have e : blk.pos + 32 * C * 1 + 8 * t + 8 * C * k + b =
        (blk.pos + 32 * C) + 8 * t + 8 * C * k + b := by ring
    rw [packRun, e, depthBody_dst, ← hA_off,
      cellLoop_dst_at C bits src sw 8 C 0 _ t k b hC (le_refl C) ht hk hb,
      depthBody_g]
    simp only [Nat.zero_add]
    have e2 : g.pos + dpc bits * C + dpc bits * t =
        g.pos + dpc bits * (C * 1 + t) := by ring
    rw [e2]

theorem packRun_dst_frame (C bits : Nat) (src : Nat → Nat → Nat)
    (blk : PackedSideBlock) (sw : Nat) (g : ROG) (a : Nat)
    (h : a < blk.pos ∨ blk.pos + 64 * C ≤ a) :
    (packRun C bits src blk sw g).dst a = blk.data a := by
  have hA_off : (depthBody C bits src sw 0
      ⟨blk.data, blk.sums, g, blk.pos, [], []⟩).off = blk.pos + 32 * C := by
    rw [depthBody_off]
  rw [packRun, depthBody_dst, cellLoop_dst_frame C bits src sw 8 C 0 _ _ ?_,
    depthBody_dst, cellLoop_dst_frame C bits src sw 0 C 0 _ _ ?_]
  · intro t' k' b' ht' hk' hb'
    show a ≠ blk.pos + 8 * t' + 8 * C * k' + b'
    interval_cases k' <;> omega
  · intro t' k' b' ht' hk' hb'
    rw [hA_off]
    interval_cases k' <;> omega

theorem packRun_sums_at (C bits : Nat) (src : Nat → Nat → Nat)
    (blk : PackedSideBlock) (sw : Nat) (g : ROG) (t i : Nat)
    (ht : t < C) (hi : i < 4) :
    (packRun C bits src blk sw g).sums (sw + 4 * t + i) =
      (blk.sums (sw + 4 * t + i) +
        cellColSum i (cellOut bits src (4 * t) 0 ⟨g.seq, g.pos + dpc bits * t⟩) +
        cellColSum i (cellOut bits src (4 * t) 8
          ⟨g.seq, g.pos + dpc bits * (C + t)⟩)) % W32 := by
  have hA_g : (depthBody C bits src sw 0
      ⟨blk.data, blk.sums, g, blk.pos, [], []⟩).g =
      ⟨g.seq, g.pos + dpc bits * C⟩ := by
    rw [depthBody_g]
  have e : sw + 4 * t + i = sw + 4 * (0 + t) + i := by ring
  rw [packRun, e, depthBody_sums,
    cellLoop_sums_at C bits src sw 8 C 0 _ t i ht hi, depthBody_sums,
    cellLoop_sums_at C bits src sw 0 C 0 _ t i ht hi, hA_g]
  simp only [Nat.zero_add, Nat.mod_add_mod]
  have e2 : g.pos + dpc bits * C + dpc bits * t =
      g.pos + dpc bits * (C + t) := by ring
  rw [e2]

theorem packRun_sums_frame (C bits : Nat) (src : Nat → Nat → Nat)
    (blk : PackedSideBlock) (sw : Nat) (g : ROG) (c : Nat)
    (h : c < sw ∨ sw + 4 * C ≤ c) :
    (packRun C bits src blk sw g).sums c = blk.sums c := by
  rw [packRun, depthBody_sums, cellLoop_sums_frame C bits src sw 8 C 0 _ c
    (by omega), depthBody_sums, cellLoop_sums_frame C bits src sw 0 C 0 _ c
    (by omega)]

theorem packRun_g (C bits : Nat) (src : Nat → Nat → Nat)
    (blk : PackedSideBlock) (sw : Nat) (g : ROG) :
    (packRun C bits src blk sw g).g = ⟨g.seq, g.pos + dpc bits * (2 * C)⟩ := by
  rw [packRun, depthBody_g, depthBody_g]
  simp only []
  congr 1
  ring

theorem packRun_off (C bits : Nat) (src : Nat → Nat → Nat)
    (blk : PackedSideBlock) (sw : Nat) (g : ROG) :
    (packRun C bits src blk sw g).off = blk.pos + 64 * C := by
  rw [packRun, depthBody_off, depthBody_off]
  show blk.pos + 32 * C + 32 * C = blk.pos + 64 * C
  ring

theorem packWrites_eq (C bits : Nat) (src : Nat → Nat → Nat)
    (blk : PackedSideBlock) (sw : Nat) (g : ROG) :
    packWrites C bits src blk sw g =
      (List.range 2).flatMap fun di => (List.range C).flatMap fun t =>
        cellWrites C (blk.pos + 32 * C * di + 8 * t)
          (cellOut bits src (4 * t) (8 * di)
            ⟨g.seq, g.pos + dpc bits * (C * di + t)⟩) := by
  have hA_off : (depthBody C bits src sw 0
      ⟨blk.data, blk.sums, g, blk.pos, [], []⟩).off = blk.pos + 32 * C := by
    rw [depthBody_off]
  have hA_g : (depthBody C bits src sw 0
      ⟨blk.data, blk.sums, g, blk.pos, [], []⟩).g =
      ⟨g.seq, g.pos + dpc bits * C⟩ := by
    rw [depthBody_g]
  rw [packWrites, packRun, depthBody_writes,
    cellLoop_writes C bits src sw 8 C 0 _, depthBody_writes,
    cellLoop_writes C bits src sw 0 C 0 _, hA_off, hA_g]
  rw [show List.range 2 = [0, 1] from rfl]
  simp only [List.flatMap_cons, List.flatMap_nil, List.append_nil,
    List.nil_append, Nat.zero_add]
  congr 1
  · refine List.flatMap_congr fun t ht => ?_
    have e1 : blk.pos + 32 * C * 0 + 8 * t = blk.pos + 8 * t := by ring
    have e2 : dpc bits * (C * 0 + t) = dpc bits * t := by ring
    rw [e1, e2]
  · refine List.flatMap_congr fun t ht => ?_
    have e1 : blk.pos + 32 * C * 1 + 8 * t = blk.pos + 32 * C + 8 * t := by ring
    have e2 : g.pos + dpc bits * C + dpc bits * t =
        g.pos + dpc bits * (C * 1 + t) := by ring
    rw [e1, e2]

theorem packVisits_eq (C bits : Nat) (src : Nat → Nat → Nat)
    (blk : PackedSideBlock) (sw : Nat) (g : ROG) :
    packVisits C bits src blk sw g =
      (List.range 2).flatMap fun di =>
        (List.range C).map fun t => (8 * di, 4 * t) := by
  rw [packVisits, packRun, depthBody_visits,
    cellLoop_visits C bits src sw 8 C 0 _, depthBody_visits,
    cellLoop_visits C bits src sw 0 C 0 _]
  rw [show List.range 2 = [0, 1] from rfl]
  simp only [List.flatMap_cons, List.flatMap_nil, List.append_nil,
    List.nil_append, Nat.zero_add, Nat.mul_zero, Nat.mul_one]

theorem sum_map_const (n c : Nat) : ((List.range n).map (fun _ => c)).sum = n * c := by
  induction n with
  | zero => simp
  | succ n ih =>
    rw [List.range_succ, List.map_append, List.sum_append, ih]
    simp [Nat.succ_mul]

theorem cellWrites_length (C off : Nat) (o : CellOut) :
    (cellWrites C off o).length = 32 := by
  simp [cellWrites, writes8]

theorem packWrites_length (C bits : Nat) (src : Nat → Nat → Nat)
    (blk : PackedSideBlock) (sw : Nat) (g : ROG) :
    (packWrites C bits src blk sw g).length = 64 * C := by
  rw [packWrites_eq]
  rw [show List.range 2 = [0, 1] from rfl]
  simp only [List.flatMap_cons, List.flatMap_nil, List.append_nil,
    List.length_append, List.length_flatMap]
  have h1 : ∀ di : Nat, ((List.range C).map (fun t =>
      (cellWrites C (blk.pos + 32 * C * di + 8 * t)
        (cellOut bits src (4 * t) (8 * di)
          ⟨g.seq, g.pos + dpc bits * (C * di + t)⟩)).length)).sum = C * 32 := by
    intro di
    rw [show ((List.range C).map (fun t =>
      (cellWrites C (blk.pos + 32 * C * di + 8 * t)
        (cellOut bits src (4 * t) (8 * di)
          ⟨g.seq, g.pos + dpc bits * (C * di + t)⟩)).length)) =
      ((List.range C).map (fun _ => 32)) from
      List.map_congr_left fun t ht => cellWrites_length _ _ _]
    rw [sum_map_const]
  rw [show (List.length ∘ fun t =>
      cellWrites C (blk.pos + 32 * C * 0 + 8 * t)
        (cellOut bits src (4 * t) (8 * 0)
          ⟨g.seq, g.pos + dpc bits * (C * 0 + t)⟩)) = (fun t =>
      (cellWrites C (blk.pos + 32 * C * 0 + 8 * t)
        (cellOut bits src (4 * t) (8 * 0)
          ⟨g.seq, g.pos + dpc bits * (C * 0 + t)⟩)).length) from rfl,
    show (List.length ∘ fun t =>
      cellWrites C (blk.pos + 32 * C * 1 + 8 * t)
        (cellOut bits src (4 * t) (8 * 1)
          ⟨g.seq, g.pos + dpc bits * (C * 1 + t)⟩)) = (fun t =>
      (cellWrites C (blk.pos + 32 * C * 1 + 8 * t)
        (cellOut bits src (4 * t) (8 * 1)
          ⟨g.seq, g.pos + dpc bits * (C * 1 + t)⟩)).length) from rfl,
    h1 0, h1 1]
  ring

theorem range8_map_getD (f : Nat → Nat) (b : Nat) (hb : b < 8) :
    ((List.range 8).map f).getD b 0 = f b := by
  interval_cases b <;> rfl

theorem rawCell_length (src : Nat → Nat → Nat) (csw csd k : Nat) :
    (rawCell src csw csd k).length = 8 := by
  simp [rawCell]

theorem reqCell_length (m : Nat) (src : Nat → Nat → Nat) (csw csd k : Nat)
    (g : ROG) : (reqCell m src csw csd k g).length = 8 := by
  simp [reqCell]

theorem rawCell_getD (src : Nat → Nat → Nat) (csw csd k b : Nat) (hb : b < 8) :
    (rawCell src csw csd k).getD b 0 = preByte src csw csd k b := by
  rw [rawCell]
  exact range8_map_getD _ b hb

theorem reqCell_getD (m : Nat) (src : Nat → Nat → Nat) (csw csd k b : Nat)
    (g : ROG) (hb : b < 8) :
    (reqCell m src csw csd k g).getD b 0 =
      requantizeByte m (preByte src csw csd k b)
        (g.seq (g.pos + (8 * k + b)) % 256) := by
  rw [reqCell]
  exact range8_map_getD _ b hb

theorem regOf_cellOut_eq8_getD (src : Nat → Nat → Nat) (csw csd : Nat)
    (g : ROG) (k b : Nat) (hk : k < 4) (hb : b < 8) :
    (regOf k (cellOut 8 src csw csd g)).getD b 0 = preByte src csw csd k b := by
  rw [cellOut_eq8]
  interval_cases k <;>
    simp only [regOf] <;>
    rw [List.getD_append _ _ _ _ (by rw [rawCell_length]; omega)] <;>
    exact rawCell_getD src csw csd _ b hb

theorem regOf_cellOut_ne8_getD (bits : Nat) (h : ¬ bits = 8)
    (src : Nat → Nat → Nat) (csw csd : Nat) (g : ROG) (k b : Nat)
    (hk : k < 4) (hb : b < 8) :
    (regOf k (cellOut bits src csw csd g)).getD b 0 =
      requantizeByte ((2 ^ bits - 1) % 256) (preByte src csw csd k b)
        (g.seq (g.pos + (8 * k + b)) % 256) := by
  rw [cellOut_ne8 bits h]
  interval_cases k <;>
    simp only [regOf] <;>
    rw [List.getD_append _ _ _ _ (by rw [reqCell_length]; omega)] <;>
    exact reqCell_getD _ src csw csd _ b _ hb

theorem dpc_eq8 : dpc 8 = 0 := rfl

theorem dpc_ne8 (bits : Nat) (h : ¬ bits = 8) : dpc bits = 32 := by
  simp [dpc, h]

/-- Destination byte offset (relative to the cursor at call time) at which
Pack stores the value of source position (w, d): depth strip d / 8, cell
row (d % 8) / 2, cell group w / 4, within-cell offset 2 * (w % 4) + d % 2
of the WidthMajor 4x2 cell. -/
def packedOffset (C w d : Nat) : Nat :=
  32 * C * (d / 8) + 8 * C * (d % 8 / 2) + 8 * (w / 4) + 2 * (w % 4) + d % 2

/-- Inverse of packedOffset, column component. -/
def unpackedCol (C a : Nat) : Nat := 4 * (a % (8 * C) / 8) + a % 8 / 2

/-- Inverse of packedOffset, depth component. -/
def unpackedDepth (C a : Nat) : Nat :=
  8 * (a / (32 * C)) + 2 * (a % (32 * C) / (8 * C)) + a % 2

theorem offset_decomp (C q p t r e : Nat) (hC : 1 ≤ C) (hq : q < 2)
    (hp : p < 4) (ht : t < C) (hr : r < 4) (he : e < 2) :
    (32 * C * q + 8 * C * p + 8 * t + 2 * r + e) / (32 * C) = q ∧
    (32 * C * q + 8 * C * p + 8 * t + 2 * r + e) % (32 * C) / (8 * C) = p ∧
    (32 * C * q + 8 * C * p + 8 * t + 2 * r + e) % (8 * C) / 8 = t ∧
    (32 * C * q + 8 * C * p + 8 * t + 2 * r + e) % 8 / 2 = r ∧
    (32 * C * q + 8 * C * p + 8 * t + 2 * r + e) % 2 = e ∧
    32 * C * q + 8 * C * p + 8 * t + 2 * r + e < 64 * C := by
  have hp3 : 8 * C * p ≤ 8 * C * 3 := Nat.mul_le_mul_left (8 * C) (by omega)
  have hq1 : 32 * C * q ≤ 32 * C * 1 := Nat.mul_le_mul_left (32 * C) (by omega)
  have hrest2 : 8 * C * p + 8 * t + 2 * r + e < 32 * C := by omega
  have hrest3 : 8 * t + 2 * r + e < 8 * C := by omega
  refine ⟨?_, ?_, ?_, ?_, ?_, by omega⟩
  · rw [show 32 * C * q + 8 * C * p + 8 * t + 2 * r + e =
      32 * C * q + (8 * C * p + 8 * t + 2 * r + e) from by ring,
      Nat.mul_add_div (by omega), Nat.div_eq_of_lt hrest2]
    omega
  · rw [show 32 * C * q + 8 * C * p + 8 * t + 2 * r + e =
      32 * C * q + (8 * C * p + 8 * t + 2 * r + e) from by ring,
      Nat.mul_add_mod, Nat.mod_eq_of_lt hrest2,
      show 8 * C * p + 8 * t + 2 * r + e =
        8 * C * p + (8 * t + 2 * r + e) from by ring,
      Nat.mul_add_div (by omega), Nat.div_eq_of_lt hrest3]
    omega
  · rw [show 32 * C * q + 8 * C * p + 8 * t + 2 * r + e =
      8 * C * (4 * q + p) + (8 * t + 2 * r + e) from by ring,
      Nat.mul_add_mod, Nat.mod_eq_of_lt hrest3]
    omega
  · rw [show 32 * C * q + 8 * C * p + 8 * t + 2 * r + e =
      8 * (4 * C * q + C * p + t) + (2 * r + e) from by ring,
      Nat.mul_add_mod]
    omega
  · rw [show 32 * C * q + 8 * C * p + 8 * t + 2 * r + e =
      2 * (16 * C * q + 4 * C * p + 4 * t + r) + e from by ring,
      Nat.mul_add_mod]
    omega

theorem unpacked_decomp (C a : Nat) (hC : 1 ≤ C) (ha : a < 64 * C) :
    a / (32 * C) < 2 ∧ a % (32 * C) / (8 * C) < 4 ∧ a % (8 * C) / 8 < C ∧
      a % 8 / 2 < 4 ∧ a % 2 < 2 ∧
      32 * C * (a / (32 * C)) + 8 * C * (a % (32 * C) / (8 * C)) +
        8 * (a % (8 * C) / 8) + 2 * (a % 8 / 2) + a % 2 = a := by
  have h32 : (0:Nat) < 32 * C := by omega
  have h8 : (0:Nat) < 8 * C := by omega
  have hd1 : a / (32 * C) < 2 := by
    rw [Nat.div_lt_iff_lt_mul h32]
    omega
  have hm1 : a % (32 * C) < 32 * C := Nat.mod_lt a h32
  have hd2 : a % (32 * C) / (8 * C) < 4 := by
    rw [Nat.div_lt_iff_lt_mul h8]
    omega
  have hm2 : a % (8 * C) < 8 * C := Nat.mod_lt a h8
  have hd3 : a % (8 * C) / 8 < C := by
    rw [Nat.div_lt_iff_lt_mul (by omega : (0:Nat) < 8)]
    omega
  refine ⟨hd1, hd2, hd3, by omega, by omega, ?_⟩
  -- a = 32C * (a / 32C) + a % 32C
  have e1 : 32 * C * (a / (32 * C)) + a % (32 * C) = a := Nat.div_add_mod a (32 * C)
  -- a % 32C = 8C * (a % 32C / 8C) + a % 32C % 8C, and a % 32C % 8C = a % 8C
  have e2 : 8 * C * (a % (32 * C) / (8 * C)) + a % (32 * C) % (8 * C) =
      a % (32 * C) := Nat.div_add_mod (a % (32 * C)) (8 * C)
  have e3 : a % (32 * C) % (8 * C) = a % (8 * C) := by
    rw [show 32 * C = 8 * C * 4 from by ring]
    exact Nat.mod_mul_right_mod a (8 * C) 4
  have e4 : 8 * (a % (8 * C) / 8) + a % (8 * C) % 8 = a % (8 * C) :=
    Nat.div_add_mod (a % (8 * C)) 8
  have e5 : a % (8 * C) % 8 = a % 8 := Nat.mod_mul_right_mod a 8 C
  omega

theorem Pack_data (C bits : Nat) (src : Nat → Nat → Nat)
    (blk : PackedSideBlock) (sw : Nat) (g : ROG) :
    (Pack C bits src blk sw g).1.data = (packRun C bits src blk sw g).dst := rfl

theorem Pack_sums (C bits : Nat) (src : Nat → Nat → Nat)
    (blk : PackedSideBlock) (sw : Nat) (g : ROG) :
    (Pack C bits src blk sw g).1.sums = (packRun C bits src blk sw g).sums :=
  rfl

theorem Pack_gen (C bits : Nat) (src : Nat → Nat → Nat)
    (blk : PackedSideBlock) (sw : Nat) (g : ROG) :
    (Pack C bits src blk sw g).2 = (packRun C bits src blk sw g).g := rfl

/-- Claim C2: the interleave applied by Pack is a bijection on byte
positions, and at bit_depth 8 the inverse map recovers every source byte
of the packed block exactly: reading the final buffer at
packedOffset(w, d) yields source byte (w, d), packedOffset is injective
on the block (unpackedCol/unpackedDepth invert it), and it surjects onto
the 64C written offsets. -/
theorem pack_interleave_bijective_roundtrip (C : Nat) (src : Nat → Nat → Nat)
    (blk : PackedSideBlock) (sw : Nat) (g : ROG) (hC : 1 ≤ C) :
    (∀ w d, w < 4 * C → d < 16 →
      packedOffset C w d < 64 * C ∧
      unpackedCol C (packedOffset C w d) = w ∧
      unpackedDepth C (packedOffset C w d) = d ∧
      (Pack C 8 src blk sw g).1.data (blk.pos + packedOffset C w d) =
        src w d % 256) ∧
    (∀ a, a < 64 * C →
      packedOffset C (unpackedCol C a) (unpackedDepth C a) = a) := by
  constructor
  · intro w d hw hd
    have hA : packedOffset C w d =
        32 * C * (d / 8) + 8 * C * (d % 8 / 2) + 8 * (w / 4) + 2 * (w % 4)
          + d % 2 := rfl
    have hdec := offset_decomp C (d / 8) (d % 8 / 2) (w / 4) (w % 4) (d % 2)
      hC (by omega) (by omega) (by omega) (by omega) (by omega)
    refine ⟨by rw [hA]; exact hdec.2.2.2.2.2, ?_, ?_, ?_⟩
    · rw [unpackedCol, hA, hdec.2.2.1, hdec.2.2.2.1]
      omega
    · rw [unpackedDepth, hA, hdec.1, hdec.2.1, hdec.2.2.2.2.1]
      omega
    · rw [Pack_data]
      have haddr : blk.pos + packedOffset C w d =
          blk.pos + 32 * C * (d / 8) + 8 * (w / 4) + 8 * C * (d % 8 / 2) +
            (2 * (w % 4) + d % 2) := by rw [hA]; ring
      rw [haddr, packRun_dst_at C 8 src blk sw g (d / 8) (w / 4) (d % 8 / 2)
        (2 * (w % 4) + d % 2) hC (by omega) (by omega) (by omega) (by omega),
        regOf_cellOut_eq8_getD _ _ _ _ _ _ (by omega) (by omega), preByte]
      have e1 : 4 * (w / 4) + (2 * (w % 4) + d % 2) / 2 = w := by omega
      have e2 : 8 * (d / 8) + 2 * (d % 8 / 2) + (2 * (w % 4) + d % 2) % 2 = d := by
        omega
      rw [e1, e2]
  · intro a ha
    have hdec := unpacked_decomp C a hC ha
    rw [unpackedCol, unpackedDepth, packedOffset]
    have h1 : (4 * (a % (8 * C) / 8) + a % 8 / 2) / 4 = a % (8 * C) / 8 := by
      omega
    have h2 : (4 * (a % (8 * C) / 8) + a % 8 / 2) % 4 = a % 8 / 2 := by omega
    have h3 : (8 * (a / (32 * C)) + 2 * (a % (32 * C) / (8 * C)) + a % 2) / 8 =
        a / (32 * C) := by omega
    have h4 : (8 * (a / (32 * C)) + 2 * (a % (32 * C) / (8 * C)) + a % 2) % 8
        / 2 = a % (32 * C) / (8 * C) := by omega
    have h5 : (8 * (a / (32 * C)) + 2 * (a % (32 * C) / (8 * C)) + a % 2) % 2 =
        a % 2 := by omega
    rw [h1, h2, h3, h4, h5]
    exact hdec.2.2.2.2.2

/-- Claim C5: at bit_depth 8, SSERequantize returns the register unchanged
and does not advance the rounding offset generator (zero draws). -/
theorem requantize_identity_at_full_depth (r : List Nat) (g : ROG) :
    (SSERequantize 8 r g).1 = r ∧ (SSERequantize 8 r g).2 = g :=
  ⟨rfl, rfl⟩

/-- Claim C6: for bit_depth b below 8, the widened product v * (2^b - 1)
does not overflow 16 bits for v up to 255, the requantized byte equals
(v * (2^b - 1) + offset) / 255 with truncating division, and for every
offset up to 254 the result is at most 2^b - 1. -/
theorem requantize_range_bound (bits v off : Nat) (hb : bits < 8)
    (hv : v ≤ 255) (ho : off ≤ 254) :
    v * (2 ^ bits - 1) % 65536 = v * (2 ^ bits - 1) ∧
    requantizeByte ((2 ^ bits - 1) % 256) v off =
      (v * (2 ^ bits - 1) + off) / 255 ∧
    requantizeByte ((2 ^ bits - 1) % 256) v off ≤ 2 ^ bits - 1 := by
  have hp : 2 ^ bits ≤ 128 := by
    calc 2 ^ bits ≤ 2 ^ 7 := Nat.pow_le_pow_right (by omega) (by omega)
    _ = 128 := by norm_num
  have hm : (2 ^ bits - 1) % 256 = 2 ^ bits - 1 := Nat.mod_eq_of_lt (by omega)
  have hvm : v * (2 ^ bits - 1) ≤ 255 * (2 ^ bits - 1) :=
    Nat.mul_le_mul_right _ hv
  have hb2 : 255 * (2 ^ bits - 1) ≤ 255 * 127 :=
    Nat.mul_le_mul_left 255 (by omega)
  have hof : v * (2 ^ bits - 1) % 65536 = v * (2 ^ bits - 1) :=
    Nat.mod_eq_of_lt (by omega)
  have hdiv : (v * (2 ^ bits - 1) + off) / 255 ≤ 2 ^ bits - 1 := by
    have h1 : (v * (2 ^ bits - 1) + off) / 255 < 2 ^ bits - 1 + 1 := by
      rw [Nat.div_lt_iff_lt_mul (by omega : (0:Nat) < 255)]
      have e : (2 ^ bits - 1 + 1) * 255 = 255 * (2 ^ bits - 1) + 255 := by ring
      omega
    omega
  refine ⟨hof, ?_, ?_⟩
  · rw [requantizeByte, hm, hof, Nat.mod_eq_of_lt (by omega)]
  · rw [requantizeByte, hm, hof, Nat.mod_eq_of_lt (by omega)]
    exact hdiv

/-- Witness for claim C6 at bits 4, v 255, offset 254: the top of range
saturates at 15. -/
theorem requantize_range_bound_witness :
    255 * (2 ^ 4 - 1) % 65536 = 255 * (2 ^ 4 - 1) ∧
    requantizeByte ((2 ^ 4 - 1) % 256) 255 254 =
      (255 * (2 ^ 4 - 1) + 254) / 255 ∧
    requantizeByte ((2 ^ 4 - 1) % 256) 255 254 ≤ 2 ^ 4 - 1 :=
  requantize_range_bound 4 255 254 (by decide) (by decide) (by decide)

/-- Claim C7: after the block is processed, Pack advances the destination
cursor by kCells * kRegisterSize / kCellDepth cells of kCellSize bytes,
and that byte advance equals the number of bytes the call wrote. -/
theorem pack_cursor_advance_matches_bytes_written (C bits : Nat)
    (src : Nat → Nat → Nat) (blk : PackedSideBlock) (sw : Nat) (g : ROG) :
    (Pack C bits src blk sw g).1.pos =
      blk.pos + C * kRegisterSize / kCellDepth * kCellSize ∧
    C * kRegisterSize / kCellDepth * kCellSize =
      (packWrites C bits src blk sw g).length := by
  refine ⟨rfl, ?_⟩
  rw [packWrites_length]
  rw [kRegisterSize, kCellDepth, kCellSize]
  omega

/-- Claim C9: a Pack call leaves every sums_of_each_slice entry outside
the column range from start_width to start_width + kernel width
unchanged. -/
theorem pack_sums_frame (C bits : Nat) (src : Nat → Nat → Nat)
    (blk : PackedSideBlock) (sw : Nat) (g : ROG) (c : Nat)
    (h : c < sw ∨ sw + kKernelWidth C ≤ c) :
    (Pack C bits src blk sw g).1.sums c = blk.sums c := by
  rw [Pack_sums]
  rw [kKernelWidth] at h
  exact packRun_sums_frame C bits src blk sw g c h

theorem requantizeBytes_length (m : Nat) :
    ∀ (n : Nat) (l : List Nat) (g : ROG),
      ((requantizeBytes m n l g).1).length = min n l.length := by
  intro n
  induction n with
  | zero => intro l g; simp [requantizeBytes]
  | succ n ih =>
    intro l g
    match l with
    | [] => simp [requantizeBytes]
    | v :: rest =>
      show (requantizeByte m v (ROG.get g).1 ::
        (requantizeBytes m n rest (ROG.get g).2).1).length = _
      rw [List.length_cons, ih, List.length_cons, Nat.succ_min_succ]

/-- Claim C10: SSERequantize modifies only the first 8 bytes of its
register: bytes 8 through 15 are returned unchanged for every bit depth. -/
theorem requantize_preserves_high_half (bits : Nat) (r : List Nat) (g : ROG)
    (i : Nat) (hlen : r.length = 16) (hi : 8 ≤ i) :
    ((SSERequantize bits r g).1).getD i 0 = r.getD i 0 := by
  by_cases h : bits = 8
  · subst h; rfl
  · simp only [SSERequantize, if_neg h]
    have hl : ((requantizeBytes ((2 ^ bits - 1) % 256) 8 r g).1).length = 8 := by
      rw [requantizeBytes_length]
      omega
    rw [List.getD_append_right _ _ _ _ (by omega)]
    rw [hl, List.getD_eq_getD_get?, List.getD_eq_getD_get?, List.get?_drop]
    have e : 8 + (i - 8) = i := by omega
    rw [e]

/-- Concrete source matrix used for witnesses: byte value 16 * w + d. -/
def wSrc : Nat → Nat → Nat := fun w d => 16 * w + d

/-- Concrete destination block used for witnesses. -/
def wBlk : PackedSideBlock := ⟨fun _ => 0, fun _ => 0, 0⟩

/-- Concrete rounding offset generator used for witnesses: offset stream
3, 5, 7, ... (draw index i gives 2 * i + 3, reduced to a byte). -/
def wGen : ROG := ⟨fun n => 2 * n + 3, 0⟩

/-- Claim C4 counterexample: the claim says the depth extent is
partitioned into strips of 4 consecutive depth positions, so with one
cell the visited (cell_start_depth, cell_start_width) pairs would be
(0,0), (4,0), (8,0), (12,0); the code uses depth_step = 8, so Pack
actually visits (0,0), (8,0). -/
theorem pack_depth_step_counterexample :
    packVisits 1 8 wSrc wBlk 0 wGen = [(0, 0), (8, 0)] ∧
    packVisits 1 8 wSrc wBlk 0 wGen ≠
      (List.range (16 / 4)).flatMap
        (fun di => (List.range 1).map fun ci => (4 * di, 4 * ci)) := by
  constructor
  · decide
  · decide

/-- Claim C4 (amended): Pack partitions the depth extent 16 into strips of
8 consecutive depth positions (depth_step = 8), processed in increasing
depth order, and within a strip visits the groups of 4 consecutive
columns in increasing column order. -/
theorem pack_depth_strips_of_eight (C bits : Nat) (src : Nat → Nat → Nat)
    (blk : PackedSideBlock) (sw : Nat) (g : ROG) :
    packVisits C bits src blk sw g =
      (List.range (kRegisterSize / 8)).flatMap fun di =>
        (List.range C).map fun ci => (8 * di, 4 * ci) := by
  rw [show kRegisterSize / 8 = 2 from rfl]
  exact packVisits_eq C bits src blk sw g

/-- Witness for claim C2 at C = 1, source byte (1, 3) and offset 11. -/
theorem pack_interleave_bijective_roundtrip_witness :
    (packedOffset 1 1 3 < 64 * 1 ∧
      unpackedCol 1 (packedOffset 1 1 3) = 1 ∧
      unpackedDepth 1 (packedOffset 1 1 3) = 3 ∧
      (Pack 1 8 wSrc wBlk 0 wGen).1.data (wBlk.pos + packedOffset 1 1 3) =
        wSrc 1 3 % 256) ∧
    packedOffset 1 (unpackedCol 1 11) (unpackedDepth 1 11) = 11 :=
  ⟨(pack_interleave_bijective_roundtrip 1 wSrc wBlk 0 wGen (by decide)).1 1 3
      (by decide) (by decide),
   (pack_interleave_bijective_roundtrip 1 wSrc wBlk 0 wGen (by decide)).2 11
      (by decide)⟩

/-- Witness for claim C9: packing columns 2..5 leaves column 1 untouched. -/
theorem pack_sums_frame_witness :
    (Pack 1 4 wSrc wBlk 2 wGen).1.sums 1 = wBlk.sums 1 :=
  pack_sums_frame 1 4 wSrc wBlk 2 wGen 1 (Or.inl (by decide))

/-- Witness for claim C10 at bits 4, byte index 9 of a concrete register. -/
theorem requantize_preserves_high_half_witness :
    ((SSERequantize 4
        [200, 201, 202, 203, 204, 205, 206, 207, 208, 209, 210, 211, 212,
         213, 214, 215] wGen).1).getD 9 0 =
      [200, 201, 202, 203, 204, 205, 206, 207, 208, 209, 210, 211, 212, 213,
       214, 215].getD 9 0 :=
  requantize_preserves_high_half 4
    [200, 201, 202, 203, 204, 205, 206, 207, 208, 209, 210, 211, 212, 213,
     214, 215] wGen 9 (by decide) (by decide)

/-- The 16 destination byte offsets (relative to the cursor at call time)
belonging to output column w of a packed block: one byte pair per depth
cell (2 strips of 4 cells). -/
def colOffsets (C w : Nat) : List Nat :=
  (List.range 2).flatMap fun di => (List.range 4).flatMap fun k =>
    [32 * C * di + 8 * C * k + 8 * (w / 4) + 2 * (w % 4),
     32 * C * di + 8 * C * k + 8 * (w / 4) + 2 * (w % 4) + 1]

theorem packRun_dst_col0 (C bits : Nat) (src : Nat → Nat → Nat)
    (blk : PackedSideBlock) (sw : Nat) (g : ROG) (di k t i : Nat)
    (hC : 1 ≤ C) (hdi : di < 2) (hk : k < 4) (ht : t < C) (hi : i < 4) :
    (packRun C bits src blk sw g).dst
        (blk.pos + (32 * C * di + 8 * C * k + 8 * t + 2 * i)) =
      (regOf k (cellOut bits src (4 * t) (8 * di)
        ⟨g.seq, g.pos + dpc bits * (C * di + t)⟩)).getD (2 * i) 0 := by
  have e : blk.pos + (32 * C * di + 8 * C * k + 8 * t + 2 * i) =
      blk.pos + 32 * C * di + 8 * t + 8 * C * k + 2 * i := by ring
  rw [e, packRun_dst_at C bits src blk sw g di t k (2 * i) hC hdi ht hk
    (by omega)]

theorem packRun_dst_col1 (C bits : Nat) (src : Nat → Nat → Nat)
    (blk : PackedSideBlock) (sw : Nat) (g : ROG) (di k t i : Nat)
    (hC : 1 ≤ C) (hdi : di < 2) (hk : k < 4) (ht : t < C) (hi : i < 4) :
    (packRun C bits src blk sw g).dst
        (blk.pos + (32 * C * di + 8 * C * k + 8 * t + 2 * i + 1)) =
      (regOf k (cellOut bits src (4 * t) (8 * di)
        ⟨g.seq, g.pos + dpc bits * (C * di + t)⟩)).getD (2 * i + 1) 0 := by
  have e : blk.pos + (32 * C * di + 8 * C * k + 8 * t + 2 * i + 1) =
      blk.pos + 32 * C * di + 8 * t + 8 * C * k + (2 * i + 1) := by ring
  rw [e, packRun_dst_at C bits src blk sw g di t k (2 * i + 1) hC hdi ht hk
    (by omega)]

/-- Claim C1: for every output column of the packed block, the sum of the
16 bytes written to that column of the destination buffer (after
requantization) equals the value added (modulo 2^32) to the column's
sums_of_each_slice entry; the entry changes by nothing else, starting from
its prior value. -/
theorem pack_column_sum_matches_accumulator (C bits : Nat)
    (src : Nat → Nat → Nat) (blk : PackedSideBlock) (sw : Nat) (g : ROG)
    (hC : 1 ≤ C) (w : Nat) (hw : w < 4 * C) :
    (Pack C bits src blk sw g).1.sums (sw + w) =
      (blk.sums (sw + w) +
        ((colOffsets C w).map fun a =>
          (Pack C bits src blk sw g).1.data (blk.pos + a)).sum) % W32 := by
  rw [Pack_sums, Pack_data]
  have hw4 : sw + w = sw + 4 * (w / 4) + w % 4 := by omega
  rw [hw4, packRun_sums_at C bits src blk sw g (w / 4) (w % 4) (by omega)
    (by omega)]
  have hmap : ((colOffsets C w).map fun a =>
      (packRun C bits src blk sw g).dst (blk.pos + a)).sum =
      cellColSum (w % 4) (cellOut bits src (4 * (w / 4)) 0
        ⟨g.seq, g.pos + dpc bits * (w / 4)⟩) +
      cellColSum (w % 4) (cellOut bits src (4 * (w / 4)) 8
        ⟨g.seq, g.pos + dpc bits * (C + w / 4)⟩) := by
    rw [show colOffsets C w =
      [32 * C * 0 + 8 * C * 0 + 8 * (w / 4) + 2 * (w % 4),
       32 * C * 0 + 8 * C * 0 + 8 * (w / 4) + 2 * (w % 4) + 1,
       32 * C * 0 + 8 * C * 1 + 8 * (w / 4) + 2 * (w % 4),
       32 * C * 0 + 8 * C * 1 + 8 * (w / 4) + 2 * (w % 4) + 1,
       32 * C * 0 + 8 * C * 2 + 8 * (w / 4) + 2 * (w % 4),
       32 * C * 0 + 8 * C * 2 + 8 * (w / 4) + 2 * (w % 4) + 1,
       32 * C * 0 + 8 * C * 3 + 8 * (w / 4) + 2 * (w % 4),
       32 * C * 0 + 8 * C * 3 + 8 * (w / 4) + 2 * (w % 4) + 1,
       32 * C * 1 + 8 * C * 0 + 8 * (w / 4) + 2 * (w % 4),
       32 * C * 1 + 8 * C * 0 + 8 * (w / 4) + 2 * (w % 4) + 1,
       32 * C * 1 + 8 * C * 1 + 8 * (w / 4) + 2 * (w % 4),
       32 * C * 1 + 8 * C * 1 + 8 * (w / 4) + 2 * (w % 4) + 1,
       32 * C * 1 + 8 * C * 2 + 8 * (w / 4) + 2 * (w % 4),
       32 * C * 1 + 8 * C * 2 + 8 * (w / 4) + 2 * (w % 4) + 1,
       32 * C * 1 + 8 * C * 3 + 8 * (w / 4) + 2 * (w % 4),
       32 * C * 1 + 8 * C * 3 + 8 * (w / 4) + 2 * (w % 4) + 1] from rfl]
    simp only [List.map_cons, List.map_nil, List.sum_cons, List.sum_nil]
    rw [packRun_dst_col0 C bits src blk sw g 0 0 (w / 4) (w % 4) hC
        (by omega) (by omega) (by omega) (by omega),
      packRun_dst_col1 C bits src blk sw g 0 0 (w / 4) (w % 4) hC
        (by omega) (by omega) (by omega) (by omega),
      packRun_dst_col0 C bits src blk sw g 0 1 (w / 4) (w % 4) hC
        (by omega) (by omega) (by omega) (by omega),
      packRun_dst_col1 C bits src blk sw g 0 1 (w / 4) (w % 4) hC
        (by omega) (by omega) (by omega) (by omega),
      packRun_dst_col0 C bits src blk sw g 0 2 (w / 4) (w % 4) hC
        (by omega) (by omega) (by omega) (by omega),
      packRun_dst_col1 C bits src blk sw g 0 2 (w / 4) (w % 4) hC
        (by omega) (by omega) (by omega) (by omega),
      packRun_dst_col0 C bits src blk sw g 0 3 (w / 4) (w % 4) hC
        (by omega) (by omega) (by omega) (by omega),
      packRun_dst_col1 C bits src blk sw g 0 3 (w / 4) (w % 4) hC
        (by omega) (by omega) (by omega) (by omega),
      packRun_dst_col0 C bits src blk sw g 1 0 (w / 4) (w % 4) hC
        (by omega) (by omega) (by omega) (by omega),
      packRun_dst_col1 C bits src blk sw g 1 0 (w / 4) (w % 4) hC
        (by omega) (by omega) (by omega) (by omega),
      packRun_dst_col0 C bits src blk sw g 1 1 (w / 4) (w % 4) hC
        (by omega) (by omega) (by omega) (by omega),
      packRun_dst_col1 C bits src blk sw g 1 1 (w / 4) (w % 4) hC
        (by omega) (by omega) (by omega) (by omega),
      packRun_dst_col0 C bits src blk sw g 1 2 (w / 4) (w % 4) hC
        (by omega) (by omega) (by omega) (by omega),
      packRun_dst_col1 C bits src blk sw g 1 2 (w / 4) (w % 4) hC
        (by omega) (by omega) (by omega) (by omega),
      packRun_dst_col0 C bits src blk sw g 1 3 (w / 4) (w % 4) hC
        (by omega) (by omega) (by omega) (by omega),
      packRun_dst_col1 C bits src blk sw g 1 3 (w / 4) (w % 4) hC
        (by omega) (by omega) (by omega) (by omega)]
    have eo0 : cellOut bits src (4 * (w / 4)) (8 * 0)
        ⟨g.seq, g.pos + dpc bits * (C * 0 + w / 4)⟩ =
        cellOut bits src (4 * (w / 4)) 0
          ⟨g.seq, g.pos + dpc bits * (w / 4)⟩ := by norm_num
    have eo1 : cellOut bits src (4 * (w / 4)) (8 * 1)
        ⟨g.seq, g.pos + dpc bits * (C * 1 + w / 4)⟩ =
        cellOut bits src (4 * (w / 4)) 8
          ⟨g.seq, g.pos + dpc bits * (C + w / 4)⟩ := by norm_num
    rw [eo0, eo1]
    have ecs : ∀ o : CellOut, cellColSum (w % 4) o =
        (regOf 0 o).getD (2 * (w % 4)) 0 + (regOf 0 o).getD (2 * (w % 4) + 1) 0
        + ((regOf 1 o).getD (2 * (w % 4)) 0 +
           (regOf 1 o).getD (2 * (w % 4) + 1) 0)
        + ((regOf 2 o).getD (2 * (w % 4)) 0 +
           (regOf 2 o).getD (2 * (w % 4) + 1) 0)
        + ((regOf 3 o).getD (2 * (w % 4)) 0 +
           (regOf 3 o).getD (2 * (w % 4) + 1) 0) := fun o => rfl
    rw [ecs, ecs]
    ring
  rw [hmap]
  have : blk.sums (sw + 4 * (w / 4) + w % 4) +
      cellColSum (w % 4) (cellOut bits src (4 * (w / 4)) 0
        ⟨g.seq, g.pos + dpc bits * (w / 4)⟩) +
      cellColSum (w % 4) (cellOut bits src (4 * (w / 4)) 8
        ⟨g.seq, g.pos + dpc bits * (C + w / 4)⟩) =
      blk.sums (sw + 4 * (w / 4) + w % 4) +
      (cellColSum (w % 4) (cellOut bits src (4 * (w / 4)) 0
        ⟨g.seq, g.pos + dpc bits * (w / 4)⟩) +
      cellColSum (w % 4) (cellOut bits src (4 * (w / 4)) 8
        ⟨g.seq, g.pos + dpc bits * (C + w / 4)⟩)) := by ring
  rw [this]

/-- Witness for claim C1 at C = 1, bits = 4, column 2. -/
theorem pack_column_sum_matches_accumulator_witness :
    (Pack 1 4 wSrc wBlk 0 wGen).1.sums (0 + 2) =
      (wBlk.sums (0 + 2) +
        ((colOffsets 1 2).map fun a =>
          (Pack 1 4 wSrc wBlk 0 wGen).1.data (wBlk.pos + a)).sum) % W32 :=
  pack_column_sum_matches_accumulator 1 4 wSrc wBlk 0 wGen (by decide) 2
    (by decide)

theorem flatMap_fixed_get? (L : Nat) :
    ∀ (n t r : Nat) (f : Nat → List (Nat × Nat)),
      (∀ i, (f i).length = L) → t < n → r < L →
      ((List.range n).flatMap f).get? (L * t + r) = (f t).get? r := by
  intro n
  induction n with
  | zero => intro t r f hf ht hr; omega
  | succ n ih =>
    intro t r f hf ht hr
    rw [List.range_succ_eq_map, List.flatMap_cons, List.flatMap_map]
    match t with
    | 0 =>
      have e : L * 0 + r = r := by ring
      rw [e, List.get?_append (by rw [hf 0]; exact hr)]
    | t' + 1 =>
      rw [List.get?_append_right (by rw [hf 0]; nlinarith)]
      have e : L * (t' + 1) + r - (f 0).length = L * t' + r := by
        rw [hf 0]; ring_nf; omega
      rw [e, ih t' r (fun a => f a.succ) (fun i => hf (i + 1)) (by omega) hr]

theorem writes8_get? (off : Nat) (r : List Nat) (b : Nat) (hb : b < 8) :
    (writes8 off r).get? b = some (off + b, r.getD b 0) := by
  rw [writes8, List.get?_map, List.get?_range hb]
  rfl

theorem writes8_length (off : Nat) (r : List Nat) :
    (writes8 off r).length = 8 := by
  simp [writes8]

theorem cellWrites_get? (C off : Nat) (o : CellOut) (k b : Nat) (hk : k < 4)
    (hb : b < 8) :
    (cellWrites C off o).get? (8 * k + b) =
      some (off + 8 * C * k + b, (regOf k o).getD b 0) := by
  have h16 : (writes8 off o.r9 ++ writes8 (off + 8 * C) o.r10).length = 16 := by
    rw [List.length_append, writes8_length, writes8_length]
  have h24 : ((writes8 off o.r9 ++ writes8 (off + 8 * C) o.r10) ++
      writes8 (off + 16 * C) o.r11).length = 24 := by
    rw [List.length_append, h16, writes8_length]
  interval_cases k
  · have e : 8 * 0 + b = b := by ring
    rw [cellWrites, e, List.get?_append (by omega),
      List.get?_append (by omega),
      List.get?_append (by rw [writes8_length]; omega),
      writes8_get? off o.r9 b hb]
    have e2 : off + b = off + 8 * C * 0 + b := by ring
    rw [e2]
    rfl
  · have e : 8 * 1 + b = 8 + b := by ring
    rw [cellWrites, e, List.get?_append (by omega),
      List.get?_append (by omega),
      List.get?_append_right (by rw [writes8_length]; omega)]
    have e2 : 8 + b - (writes8 off o.r9).length = b := by
      rw [writes8_length]; omega
    rw [e2, writes8_get? _ o.r10 b hb]
    have e3 : off + 8 * C + b = off + 8 * C * 1 + b := by ring
    rw [e3]
    rfl
  · have e : 8 * 2 + b = 16 + b := by ring
    rw [cellWrites, e, List.get?_append (by omega),
      List.get?_append_right (by omega)]
    have e2 : 16 + b - (writes8 off o.r9 ++ writes8 (off + 8 * C) o.r10).length
        = b := by rw [h16]; omega
    rw [e2, writes8_get? _ o.r11 b hb]
    have e3 : off + 16 * C + b = off + 8 * C * 2 + b := by ring
    rw [e3]
    rfl
  · have e : 8 * 3 + b = 24 + b := by ring
    rw [cellWrites, e, List.get?_append_right (by omega)]
    have e2 : 24 + b - ((writes8 off o.r9 ++ writes8 (off + 8 * C) o.r10) ++
        writes8 (off + 16 * C) o.r11).length = b := by rw [h24]; omega
    rw [e2, writes8_get? _ o.r12 b hb]
    have e3 : off + 24 * C + b = off + 8 * C * 3 + b := by ring
    rw [e3]
    rfl

theorem strip_writes_length (C : Nat) (h : Nat → Nat) (o : Nat → CellOut) :
    ((List.range C).flatMap fun t => cellWrites C (h t) (o t)).length =
      32 * C := by
  rw [List.length_flatMap,
    show (List.length ∘ fun t => cellWrites C (h t) (o t)) = fun _ => 32 from
      funext fun t => cellWrites_length C (h t) (o t),
    sum_map_const]
  ring

/-- Claim C3: when bit_depth is below 8, Pack draws exactly one rounding
offset per destination byte written (64C bytes, 64C draws), and the draw
order matches the visitation order: the entry at position j of the ordered
write trace was requantized with draw number j of the generator; within
each sub-tile the four 8-byte register halves are consumed in store order,
left to right. -/
theorem pack_draw_order (C bits : Nat) (src : Nat → Nat → Nat)
    (blk : PackedSideBlock) (sw : Nat) (g : ROG) (hbits : bits < 8) :
    (packWrites C bits src blk sw g).length = 64 * C ∧
    (Pack C bits src blk sw g).2.pos = g.pos + 64 * C ∧
    (∀ di t k b, di < 2 → t < C → k < 4 → b < 8 →
      (packWrites C bits src blk sw g).get?
          (32 * (C * di + t) + 8 * k + b) =
        some (blk.pos + 32 * C * di + 8 * t + 8 * C * k + b,
          requantizeByte ((2 ^ bits - 1) % 256)
            (src (4 * t + b / 2) (8 * di + 2 * k + b % 2) % 256)
            (g.seq (g.pos + (32 * (C * di + t) + 8 * k + b)) % 256))) := by
  have hne : ¬ bits = 8 := by omega
  refine ⟨packWrites_length C bits src blk sw g, ?_, ?_⟩
  · rw [Pack_gen, packRun_g]
    show g.pos + dpc bits * (2 * C) = g.pos + 64 * C
    rw [dpc_ne8 bits hne]
    ring
  · intro di t k b hdi ht hk hb
    rw [packWrites_eq]
    have eidx : 32 * (C * di + t) + 8 * k + b =
        32 * C * di + (32 * t + (8 * k + b)) := by ring
    conv_lhs => rw [eidx]
    rw [flatMap_fixed_get? (32 * C) 2 di (32 * t + (8 * k + b)) _
      (fun i => strip_writes_length C _ _) hdi (by omega),
      flatMap_fixed_get? 32 C t (8 * k + b) _
      (fun i => cellWrites_length C _ _) ht (by omega),
      cellWrites_get? C _ _ k b hk hb,
      regOf_cellOut_ne8_getD bits hne src (4 * t) (8 * di) _ k b hk hb]
    have epos : ((⟨g.seq, g.pos + dpc bits * (C * di + t)⟩ : ROG).pos +
        (8 * k + b)) = g.pos + (32 * (C * di + t) + 8 * k + b) := by
      show g.pos + dpc bits * (C * di + t) + (8 * k + b) = _
      rw [dpc_ne8 bits hne]
      ring
    rw [epos, preByte]

/-- Witness for claim C3 at C = 1, bits = 4, trace position 53
(strip 1, register half 2, byte 5). -/
theorem pack_draw_order_witness :
    (packWrites 1 4 wSrc wBlk 0 wGen).length = 64 * 1 ∧
    (Pack 1 4 wSrc wBlk 0 wGen).2.pos = wGen.pos + 64 * 1 ∧
    (packWrites 1 4 wSrc wBlk 0 wGen).get? (32 * (1 * 1 + 0) + 8 * 2 + 5) =
      some (wBlk.pos + 32 * 1 * 1 + 8 * 0 + 8 * 1 * 2 + 5,
        requantizeByte ((2 ^ 4 - 1) % 256)
          (wSrc (4 * 0 + 5 / 2) (8 * 1 + 2 * 2 + 5 % 2) % 256)
          (wGen.seq (wGen.pos + (32 * (1 * 1 + 0) + 8 * 2 + 5)) % 256)) :=
  ⟨(pack_draw_order 1 4 wSrc wBlk 0 wGen (by decide)).1,
   (pack_draw_order 1 4 wSrc wBlk 0 wGen (by decide)).2.1,
   (pack_draw_order 1 4 wSrc wBlk 0 wGen (by decide)).2.2 1 0 2 5 (by decide)
     (by decide) (by decide) (by decide)⟩

theorem dpc_le (bits : Nat) : dpc bits ≤ 32 := by
  rw [dpc]
  split <;> omega

theorem cellByte_congr (bits : Nat) (src1 src2 : Nat → Nat → Nat)
    (csw csd : Nat) (s1 s2 : Nat → Nat) (p1 p2 : Nat) (k b : Nat)
    (hk : k < 4) (hb : b < 8)
    (hsrc : ∀ i j, i < 4 → j < 8 →
      src1 (csw + i) (csd + j) = src2 (csw + i) (csd + j))
    (hseq : ∀ j, j < 32 → s1 (p1 + j) = s2 (p2 + j)) :
    (regOf k (cellOut bits src1 csw csd ⟨s1, p1⟩)).getD b 0 =
      (regOf k (cellOut bits src2 csw csd ⟨s2, p2⟩)).getD b 0 := by
  have hpre : preByte src1 csw csd k b = preByte src2 csw csd k b := by
    rw [preByte, preByte,
      show csd + 2 * k + b % 2 = csd + (2 * k + b % 2) from by ring,
      hsrc (b / 2) (2 * k + b % 2) (by omega) (by omega)]
  by_cases h : bits = 8
  · subst h
    rw [regOf_cellOut_eq8_getD src1 csw csd _ k b hk hb,
      regOf_cellOut_eq8_getD src2 csw csd _ k b hk hb, hpre]
  · rw [regOf_cellOut_ne8_getD bits h src1 csw csd _ k b hk hb,
      regOf_cellOut_ne8_getD bits h src2 csw csd _ k b hk hb, hpre]
    show requantizeByte _ _ (s1 (p1 + (8 * k + b)) % 256) =
      requantizeByte _ _ (s2 (p2 + (8 * k + b)) % 256)
    rw [hseq (8 * k + b) (by omega)]

theorem cellColSum_congr (bits : Nat) (src1 src2 : Nat → Nat → Nat)
    (csw csd : Nat) (s1 s2 : Nat → Nat) (p1 p2 : Nat) (i : Nat) (hi : i < 4)
    (hsrc : ∀ i' j, i' < 4 → j < 8 →
      src1 (csw + i') (csd + j) = src2 (csw + i') (csd + j))
    (hseq : ∀ j, j < 32 → s1 (p1 + j) = s2 (p2 + j)) :
    cellColSum i (cellOut bits src1 csw csd ⟨s1, p1⟩) =
      cellColSum i (cellOut bits src2 csw csd ⟨s2, p2⟩) := by
  have ecs : ∀ o : CellOut, cellColSum i o =
      (regOf 0 o).getD (2 * i) 0 + (regOf 0 o).getD (2 * i + 1) 0 +
      ((regOf 1 o).getD (2 * i) 0 + (regOf 1 o).getD (2 * i + 1) 0) +
      ((regOf 2 o).getD (2 * i) 0 + (regOf 2 o).getD (2 * i + 1) 0) +
      ((regOf 3 o).getD (2 * i) 0 + (regOf 3 o).getD (2 * i + 1) 0) :=
    fun o => rfl
  rw [ecs, ecs,
    cellByte_congr bits src1 src2 csw csd s1 s2 p1 p2 0 (2 * i) (by omega)
      (by omega) hsrc hseq,
    cellByte_congr bits src1 src2 csw csd s1 s2 p1 p2 0 (2 * i + 1) (by omega)
      (by omega) hsrc hseq,
    cellByte_congr bits src1 src2 csw csd s1 s2 p1 p2 1 (2 * i) (by omega)
      (by omega) hsrc hseq,
    cellByte_congr bits src1 src2 csw csd s1 s2 p1 p2 1 (2 * i + 1) (by omega)
      (by omega) hsrc hseq,
    cellByte_congr bits src1 src2 csw csd s1 s2 p1 p2 2 (2 * i) (by omega)
      (by omega) hsrc hseq,
    cellByte_congr bits src1 src2 csw csd s1 s2 p1 p2 2 (2 * i + 1) (by omega)
      (by omega) hsrc hseq,
    cellByte_congr bits src1 src2 csw csd s1 s2 p1 p2 3 (2 * i) (by omega)
      (by omega) hsrc hseq,
    cellByte_congr bits src1 src2 csw csd s1 s2 p1 p2 3 (2 * i + 1) (by omega)
      (by omega) hsrc hseq]

/-- Claim C8: Pack is deterministic. Two Pack calls with the same cell
count and bit depth, source views agreeing on the packed block, identical
destination state (buffer, accumulators, cursor), the same start_width,
and rounding offset generators in identical states (their offset streams
agree on the draws of this call) produce byte-identical destination
buffers, identical accumulator contents (hence identical deltas), and the
same final cursor. -/
theorem pack_deterministic (C bits : Nat) (src1 src2 : Nat → Nat → Nat)
    (blk1 blk2 : PackedSideBlock) (sw : Nat) (g1 g2 : ROG) (hC : 1 ≤ C)
    (hsrc : ∀ w d, w < 4 * C → d < 16 → src1 w d = src2 w d)
    (hdata : ∀ a, blk1.data a = blk2.data a)
    (hsums : ∀ c, blk1.sums c = blk2.sums c)
    (hpos : blk1.pos = blk2.pos)
    (hseq : ∀ j, j < 64 * C → g1.seq (g1.pos + j) = g2.seq (g2.pos + j)) :
    (∀ a, (Pack C bits src1 blk1 sw g1).1.data a =
      (Pack C bits src2 blk2 sw g2).1.data a) ∧
    (∀ c, (Pack C bits src1 blk1 sw g1).1.sums c =
      (Pack C bits src2 blk2 sw g2).1.sums c) ∧
    (Pack C bits src1 blk1 sw g1).1.pos =
      (Pack C bits src2 blk2 sw g2).1.pos := by
  refine ⟨?_, ?_, ?_⟩
  · intro a
    rw [Pack_data, Pack_data]
    by_cases h1 : blk1.pos ≤ a ∧ a - blk1.pos < 64 * C
    · have hj : a - blk1.pos < 64 * C := h1.2
      have hdec := unpacked_decomp C (a - blk1.pos) hC hj
      obtain ⟨hq, hp, ht, hr, he, hid⟩ := hdec
      have haj : a = blk1.pos +
          (32 * C * ((a - blk1.pos) / (32 * C)) +
           8 * C * ((a - blk1.pos) % (32 * C) / (8 * C)) +
           8 * ((a - blk1.pos) % (8 * C) / 8) +
           2 * ((a - blk1.pos) % 8 / 2) + (a - blk1.pos) % 2) := by
        rw [hid]
        omega
      have haj2 : a = blk2.pos +
          (32 * C * ((a - blk1.pos) / (32 * C)) +
           8 * C * ((a - blk1.pos) % (32 * C) / (8 * C)) +
           8 * ((a - blk1.pos) % (8 * C) / 8) +
           2 * ((a - blk1.pos) % 8 / 2) + (a - blk1.pos) % 2) := by
        rw [← hpos]
        exact haj
      have hb8 : 2 * ((a - blk1.pos) % 8 / 2) + (a - blk1.pos) % 2 < 8 := by
        omega
      have e1 : blk1.pos +
          (32 * C * ((a - blk1.pos) / (32 * C)) +
           8 * C * ((a - blk1.pos) % (32 * C) / (8 * C)) +
           8 * ((a - blk1.pos) % (8 * C) / 8) +
           2 * ((a - blk1.pos) % 8 / 2) + (a - blk1.pos) % 2) =
          blk1.pos + 32 * C * ((a - blk1.pos) / (32 * C)) +
            8 * ((a - blk1.pos) % (8 * C) / 8) +
            8 * C * ((a - blk1.pos) % (32 * C) / (8 * C)) +
            (2 * ((a - blk1.pos) % 8 / 2) + (a - blk1.pos) % 2) := by ring
      have e2 : blk2.pos +
          (32 * C * ((a - blk1.pos) / (32 * C)) +
           8 * C * ((a - blk1.pos) % (32 * C) / (8 * C)) +
           8 * ((a - blk1.pos) % (8 * C) / 8) +
           2 * ((a - blk1.pos) % 8 / 2) + (a - blk1.pos) % 2) =
          blk2.pos + 32 * C * ((a - blk1.pos) / (32 * C)) +
            8 * ((a - blk1.pos) % (8 * C) / 8) +
            8 * C * ((a - blk1.pos) % (32 * C) / (8 * C)) +
            (2 * ((a - blk1.pos) % 8 / 2) + (a - blk1.pos) % 2) := by ring
      conv_lhs => rw [haj, e1]
      conv_rhs => rw [haj2, e2]
      rw [packRun_dst_at C bits src1 blk1 sw g1 _ _ _ _ hC hq ht hp hb8,
        packRun_dst_at C bits src2 blk2 sw g2 _ _ _ _ hC hq ht hp hb8]
      have hcq : C * ((a - blk1.pos) / (32 * C)) +
          (a - blk1.pos) % (8 * C) / 8 ≤ 2 * C - 1 := by
        interval_cases h : (a - blk1.pos) / (32 * C) <;> omega
      have hdpc : dpc bits * (C * ((a - blk1.pos) / (32 * C)) +
          (a - blk1.pos) % (8 * C) / 8) ≤ 32 * (2 * C - 1) :=
        Nat.mul_le_mul (dpc_le bits) hcq
      refine cellByte_congr bits src1 src2 _ _ _ _ _ _ _ _ hp hb8 ?_ ?_
      · intro i j hi hj'
        exact hsrc _ _ (by omega) (by omega)
      · intro j hj'
        have e3 : g1.pos + dpc bits * (C * ((a - blk1.pos) / (32 * C)) +
            (a - blk1.pos) % (8 * C) / 8) + j =
            g1.pos + (dpc bits * (C * ((a - blk1.pos) / (32 * C)) +
              (a - blk1.pos) % (8 * C) / 8) + j) := by ring
        have e4 : g2.pos + dpc bits * (C * ((a - blk1.pos) / (32 * C)) +
            (a - blk1.pos) % (8 * C) / 8) + j =
            g2.pos + (dpc bits * (C * ((a - blk1.pos) / (32 * C)) +
              (a - blk1.pos) % (8 * C) / 8) + j) := by ring
        rw [e3, e4]
        exact hseq _ (by omega)
    · rw [packRun_dst_frame C bits src1 blk1 sw g1 a (by omega),
        packRun_dst_frame C bits src2 blk2 sw g2 a (by omega)]
      exact hdata a
  · intro c
    rw [Pack_sums, Pack_sums]
    by_cases h1 : sw ≤ c ∧ c - sw < 4 * C
    · have hc : c = sw + 4 * ((c - sw) / 4) + (c - sw) % 4 := by omega
      conv_lhs => rw [hc]
      conv_rhs => rw [hc]
      rw [packRun_sums_at C bits src1 blk1 sw g1 _ _ (by omega) (by omega),
        packRun_sums_at C bits src2 blk2 sw g2 _ _ (by omega) (by omega),
        hsums]
      have hwin : ∀ i j : Nat, i < 4 → j < 8 →
          src1 (4 * ((c - sw) / 4) + i) (0 + j) =
            src2 (4 * ((c - sw) / 4) + i) (0 + j) := by
        intro i j hi hj
        exact hsrc _ _ (by omega) (by omega)
      have hwin8 : ∀ i j : Nat, i < 4 → j < 8 →
          src1 (4 * ((c - sw) / 4) + i) (8 + j) =
            src2 (4 * ((c - sw) / 4) + i) (8 + j) := by
        intro i j hi hj
        exact hsrc _ _ (by omega) (by omega)
      have hd0 : dpc bits * ((c - sw) / 4) ≤ 32 * (C - 1) :=
        Nat.mul_le_mul (dpc_le bits) (by omega)
      have hd8 : dpc bits * (C + (c - sw) / 4) ≤ 32 * (2 * C - 1) :=
        Nat.mul_le_mul (dpc_le bits) (by omega)
      rw [cellColSum_congr bits src1 src2 (4 * ((c - sw) / 4)) 0 g1.seq g2.seq
          (g1.pos + dpc bits * ((c - sw) / 4))
          (g2.pos + dpc bits * ((c - sw) / 4)) _ (by omega) hwin ?_,
        cellColSum_congr bits src1 src2 (4 * ((c - sw) / 4)) 8 g1.seq g2.seq
          (g1.pos + dpc bits * (C + (c - sw) / 4))
          (g2.pos + dpc bits * (C + (c - sw) / 4)) _ (by omega) hwin8 ?_]
      · intro j hj
        rw [show g1.pos + dpc bits * (C + (c - sw) / 4) + j =
            g1.pos + (dpc bits * (C + (c - sw) / 4) + j) from by ring,
          show g2.pos + dpc bits * (C + (c - sw) / 4) + j =
            g2.pos + (dpc bits * (C + (c - sw) / 4) + j) from by ring]
        exact hseq _ (by omega)
      · intro j hj
        rw [show g1.pos + dpc bits * ((c - sw) / 4) + j =
            g1.pos + (dpc bits * ((c - sw) / 4) + j) from by ring,
          show g2.pos + dpc bits * ((c - sw) / 4) + j =
            g2.pos + (dpc bits * ((c - sw) / 4) + j) from by ring]
        exact hseq _ (by omega)
    · rw [packRun_sums_frame C bits src1 blk1 sw g1 c (by omega),
        packRun_sums_frame C bits src2 blk2 sw g2 c (by omega)]
      exact hsums c
  · show blk1.pos + C * kRegisterSize / kCellDepth * kCellSize =
      blk2.pos + C * kRegisterSize / kCellDepth * kCellSize
    rw [hpos]

/-- Second source for the determinism witness: agrees with wSrc on the
packed block, differs outside it. -/
def wSrc2 : Nat → Nat → Nat :=
  fun w d => if w < 4 ∧ d < 16 then 16 * w + d else 999

/-- Second generator for the determinism witness: a different stream
function and position whose draws nevertheless agree with wGen. -/
def wGen2 : ROG := ⟨fun n => 2 * n - 7, 5⟩

/-- Witness for claim C8 at C = 1, bits = 4: the two calls agree at buffer
address 3, accumulator column 0, and in the final cursor. -/
theorem pack_deterministic_witness :
    (Pack 1 4 wSrc wBlk 0 wGen).1.data 3 =
      (Pack 1 4 wSrc2 wBlk 0 wGen2).1.data 3 ∧
    (Pack 1 4 wSrc wBlk 0 wGen).1.sums 0 =
      (Pack 1 4 wSrc2 wBlk 0 wGen2).1.sums 0 ∧
    (Pack 1 4 wSrc wBlk 0 wGen).1.pos =
      (Pack 1 4 wSrc2 wBlk 0 wGen2).1.pos := by
  have h := pack_deterministic 1 4 wSrc wSrc2 wBlk wBlk 0 wGen wGen2
    (by decide)
    (fun w d hw hd => by
      rw [wSrc2, if_pos ⟨by omega, hd⟩]
      rfl)
    (fun a => rfl) (fun c => rfl) rfl
    (fun j hj => by
      show 2 * (0 + j) + 3 = 2 * (5 + j) - 7
      omega)
  exact ⟨h.1 3, h.2.1 0, h.2.2⟩
